import Mathlib

/-!
Verification development for the tb_pivot_excel repository (src/v1/main.py,
src/v1/settings.py).

Shallow embedding conventions:
* Timestamps are integers (milliseconds since the epoch 1970-01-01 00:00,
  tz-naive wall clock).  `msPerDay` and `msPerSec` convert calendar units.
* pandas DataFrames are embedded as lists of rows; cell values are `Option ℚ`
  (`none` models NaN / null).
* Python `%` on integers is floor-based, which is `Int.fmod` in Lean.
* Python truthiness of strings/options is modelled explicitly (`none` and the
  empty string are falsy).
-/

namespace TbPivot

def msPerSec : ℤ := 1000

def msPerDay : ℤ := 86400000

/-- Civil day number of a wall-clock timestamp (days since 1970-01-01). -/
def dayOf (t : ℤ) : ℤ := Int.fdiv t msPerDay

/-- pandas `Timestamp.normalize()`: midnight of the timestamp's day. -/
def normalize (t : ℤ) : ℤ := dayOf t * msPerDay

/-- Civil calendar from a day number (days since 1970-01-01), as
(year, month, day).  Standard era-based conversion; executable. -/
def civilFromDays (z0 : ℤ) : ℤ × ℤ × ℤ :=
  let z := z0 + 719468
  let era := Int.fdiv z 146097
  let doe := z - era * 146097
  let yoe := (doe - doe / 1460 + doe / 36524 - doe / 146096) / 365
  let y := yoe + era * 400
  let doy := doe - (365 * yoe + yoe / 4 - yoe / 100)
  let mp := (5 * doy + 2) / 153
  let d := doy - (153 * mp + 2) / 5 + 1
  let m := mp + (if mp < 10 then 3 else -9)
  (if m ≤ 2 then y + 1 else y, m, d)

/-- Day number (days since 1970-01-01) of a civil date. -/
def daysFromCivil (y m d : ℤ) : ℤ :=
  let y1 := if m ≤ 2 then y - 1 else y
  let era := Int.fdiv y1 400
  let yoe := y1 - era * 400
  let mp := Int.fmod (m + 9) 12
  let doy := (153 * mp + 2) / 5 + d - 1
  let doe := yoe * 365 + yoe / 4 - yoe / 100 + doy
  era * 146097 + doe - 719468

/-- Day number of the first day of the month containing day `z`. -/
def monthStartDay (z : ℤ) : ℤ :=
  let ymd := civilFromDays z
  daysFromCivil ymd.1 ymd.2.1 1

/-- Day number of the first day of the month after the month containing day `z`. -/
def nextMonthStartDay (z : ℤ) : ℤ :=
  let ymd := civilFromDays z
  if ymd.2.1 = 12 then daysFromCivil (ymd.1 + 1) 1 1
  else daysFromCivil ymd.1 (ymd.2.1 + 1) 1

/-- Day number of Jan 1 of the year containing day `z`. -/
def yearStartDay (z : ℤ) : ℤ :=
  let ymd := civilFromDays z
  daysFromCivil ymd.1 1 1

/-- Day number of Dec 31 of the year containing day `z` (pandas `YearEnd(1)`
applied to a Jan-1 midnight keeps the midnight time-of-day). -/
def yearEndDay (z : ℤ) : ℤ :=
  let ymd := civilFromDays z
  daysFromCivil ymd.1 12 31

/-- Smallest day number `d' ≥ d` with `d' ≡ anchor (mod 7)`.
Day 0 (1970-01-01) is a Thursday, so Saturday is anchor 2 and Sunday anchor 3. -/
def weekCeilDay (anchor d : ℤ) : ℤ := d + Int.fmod (anchor - d) 7

-- ── 3. Aggregation Helpers (src/v1/main.py) ─────────────────────────────────

/-- Lookup in a Python dict of strings (assoc list; first binding wins). -/
def dictGet (m : List (String × String)) (k : String) : Option String :=
  (m.find? fun e => decide (e.1 = k)).map Prod.snd

/-- Python `a or b` for an optional string `a`: `none` and `""` are falsy. -/
def pyOrStr (a : Option String) (b : String) : String :=
  match a with
  | some s => if s = "" then b else s
  | none => b

/-- `_get_agg_func`: `agg_map.get(key) or agg_map.get("default") or "mean"`. -/
def get_agg_func (key : String) (aggMap : List (String × String)) : String :=
  pyOrStr (dictGet aggMap key) (pyOrStr (dictGet aggMap "default") "mean")

/-- ASCII-lowered code point of a character (`str.lower` on ASCII input). -/
def lowerNat (c : Char) : ℕ :=
  if 65 ≤ c.toNat ∧ c.toNat ≤ 90 then c.toNat + 32 else c.toNat

/-- Python `s.lower() == t` for a lowercase ASCII literal `t`. -/
def pyLowerEq (s t : String) : Bool :=
  decide (s.toList.map lowerNat = t.toList.map Char.toNat)

/-- `_week_start_offset`: 6 for Sunday (`week_start.lower() == "sunday"`),
else 0. -/
def week_start_offset (weekStart : String) : ℤ :=
  if pyLowerEq weekStart "sunday" then 6 else 0

/-- `_build_agg_dict`: one aggregation-function entry per data column. -/
def build_agg_dict (dataCols : List String) (aggMap : List (String × String)) :
    List (String × String) :=
  dataCols.map fun c => (c, get_agg_func c aggMap)

/-- Application of a named pandas aggregation function to the non-null values
of one column within one resample group (values listed in the pivot's row
order).  pandas skips NaN; an empty-after-NaN group gives NaN (`none`) except
for `sum`, which gives 0. -/
def applyAgg (f : String) (vals : List ℚ) : Option ℚ :=
  if f = "mean" then (if vals = [] then none else some (vals.sum / vals.length))
  else if f = "sum" then some vals.sum
  else if f = "min" then vals.min?
  else if f = "max" then vals.max?
  else if f = "first" then vals.head?
  else if f = "last" then vals.getLast?
  else none

/-- The valid aggregation-function names of the configuration's
aggregation map (spec section 3, settings.py `agg_map` comment). -/
def aggFuncNames : List String := ["mean", "sum", "min", "max", "first", "last"]

/-- The frequency string handed to pandas `resample` (`_resample_pivot` lines
205-209): weekly frequency is anchored from the configured week start. -/
def freqStrOf (freq weekStart : String) : String :=
  if freq = "W" then (if week_start_offset weekStart = 6 then "W-SAT" else "W-SUN")
  else freq

/-- The pandas resample bin label containing wall-clock timestamp `t`:
* `D` bins are `[midnight, next midnight)`, labelled left (the midnight);
* `W-SAT`/`W-SUN` bins are 7-day windows ending on (and including all of) the
  anchor day, labelled by the anchor day's midnight;
* `MS` bins are calendar months labelled by the first of the month;
* `YS` bins are calendar years labelled by Jan 1. -/
def labelOf (freqStr : String) (t : ℤ) : ℤ :=
  if freqStr = "D" then normalize t
  else if freqStr = "W-SAT" then weekCeilDay 2 (dayOf t) * msPerDay
  else if freqStr = "W-SUN" then weekCeilDay 3 (dayOf t) * msPerDay
  else if freqStr = "MS" then monthStartDay (dayOf t) * msPerDay
  else if freqStr = "YS" then yearStartDay (dayOf t) * msPerDay
  else t

/-- All bin labels produced by `df.resample(freqStr)` for data spanning
`[tmin, tmax]`: every label from the bin of `tmin` to the bin of `tmax`
inclusive (pandas emits empty interior bins as NaN rows). -/
def binLabels (freqStr : String) (tmin tmax : ℤ) : List ℤ :=
  if freqStr = "D" ∨ freqStr = "W-SAT" ∨ freqStr = "W-SUN" then
    let step := if freqStr = "D" then msPerDay else 7 * msPerDay
    let l0 := labelOf freqStr tmin
    let l1 := labelOf freqStr tmax
    (List.range ((l1 - l0) / step + 1).toNat).map fun k => l0 + k * step
  else if freqStr = "MS" then
    let ymd0 := civilFromDays (dayOf tmin)
    let ymd1 := civilFromDays (dayOf tmax)
    let mi0 := ymd0.1 * 12 + (ymd0.2.1 - 1)
    let mi1 := ymd1.1 * 12 + (ymd1.2.1 - 1)
    (List.range (mi1 - mi0 + 1).toNat).map fun k =>
      daysFromCivil ((mi0 + k) / 12) (Int.fmod (mi0 + k) 12 + 1) 1 * msPerDay
  else if freqStr = "YS" then
    let y0 := (civilFromDays (dayOf tmin)).1
    let y1 := (civilFromDays (dayOf tmax)).1
    (List.range (y1 - y0 + 1).toNat).map fun k => daysFromCivil (y0 + k) 1 1 * msPerDay
  else []

/-- Period boundaries computed in `_resample_pivot`'s completeness loop
(lines 218-233) from the resampled index label `L`, for each frequency:
the inclusive period start and the value `period_end_excl` the code compares
against the data maximum. -/
def periodBounds (freq : String) (L : ℤ) : ℤ × ℤ :=
  if freq = "D" then
    let ps := normalize L
    (ps, ps + msPerDay - msPerSec)
  else if freq = "W" then
    (L - 6 * msPerDay, L)
  else if freq = "MS" then
    (L, nextMonthStartDay (dayOf L) * msPerDay - msPerSec)
  else if freq = "YS" then
    (L, yearEndDay (dayOf L) * msPerDay)
  else (L, L)

/-- The pivot DataFrame handed to `_resample_pivot`: the `Timestamp` column
and, positionally aligned with `dataCols`, the data cells of each row. -/
structure PivotDF where
  dataCols : List String
  rows : List (ℤ × List (Option ℚ))
deriving DecidableEq

/-- Non-null values of data column `j` among the pivot rows falling in the
resample bin labelled `L`, in the pivot's row order. -/
def groupVals (rows : List (ℤ × List (Option ℚ))) (freqStr : String) (L : ℤ)
    (j : ℕ) : List ℚ :=
  rows.filterMap fun r => if labelOf freqStr r.1 = L then r.2.getD j none else none

/-- One resampled row: the aggregation dict built by `_build_agg_dict` applied
column-wise (`df.resample(freq_str).agg(agg_dict)`). -/
def aggRowGo (rows : List (ℤ × List (Option ℚ))) (freqStr : String) (L : ℤ) :
    List (String × String) → ℕ → List (Option ℚ)
  | [], _ => []
  | e :: rest, j => applyAgg e.2 (groupVals rows freqStr L j) :: aggRowGo rows freqStr L rest (j + 1)

def aggRowFor (pv : PivotDF) (freqStr : String) (aggMap : List (String × String))
    (L : ℤ) : List (Option ℚ) :=
  aggRowGo pv.rows freqStr L (build_agg_dict pv.dataCols aggMap) 0

/-- `_resample_pivot` (src/v1/main.py lines 197-247).  Output rows are
`(period start date as a day number, aggregated cells)`; only periods passing
the completeness filter survive, and an empty survivor list yields `[]`
(the empty DataFrame). -/
def resample_pivot (pv : PivotDF) (freq : String) (aggMap : List (String × String))
    (weekStart : String) : List (ℤ × List (Option ℚ)) :=
  match pv.rows.map Prod.fst with
  | [] => []
  | t :: ts =>
    let tmin := ts.foldl min t
    let tmax := ts.foldl max t
    let fs := freqStrOf freq weekStart
    (binLabels fs tmin tmax).filterMap fun L =>
      let pb := periodBounds freq L
      if normalize tmin ≤ pb.1 ∧ pb.2 ≤ tmax then
        -- first_day_complete / start-date drop rule (lines 235-238)
        if dayOf pb.1 = dayOf tmin ∧ ¬ tmin = normalize tmin then none
        else some (dayOf pb.1, aggRowFor pv fs aggMap L)
      else none

/-- The aggregate-sheet construction loop of
`build_dataframes_from_widget_payload` (lines 431-435): a granularity enters
the result dict only when its resampled table is nonempty. -/
def freqSheetKeys : List (String × String) :=
  [("D", "daily"), ("W", "weekly"), ("MS", "monthly"), ("YS", "yearly")]

def aggSheets (pv : PivotDF) (aggMap : List (String × String)) (weekStart : String) :
    List (String × List (ℤ × List (Option ℚ))) :=
  freqSheetKeys.filterMap fun fk =>
    let dfAgg := resample_pivot pv fk.1 aggMap weekStart
    if dfAgg = [] then none else some (fk.2, dfAgg)

/-- `df_pivot["Timestamp"].min()` (0 on an empty frame, never consulted then). -/
def minTsOf (pv : PivotDF) : ℤ :=
  match pv.rows.map Prod.fst with
  | [] => 0
  | t :: ts => ts.foldl min t

/-- `df_pivot["Timestamp"].max()`. -/
def maxTsOf (pv : PivotDF) : ℤ :=
  match pv.rows.map Prod.fst with
  | [] => 0
  | t :: ts => ts.foldl max t

/-- Value of the `k`-th synthetic meter sample (`test_resample.make_df`). -/
def meterVal (k : ℕ) : ℚ := ((1000 + 10 * k : ℕ) : ℚ)

/-- Synthetic pivot mirroring `test_resample.make_df`: one column
`asset1 key1`, samples every 6 hours, values `1000 + 10 k`. -/
def mkMeterPivot (startMs : ℤ) (n : ℕ) : PivotDF :=
  { dataCols := ["asset1 key1"],
    rows := (List.range n).map fun (k : ℕ) =>
      (startMs + (k : ℤ) * 21600000, [some (meterVal k)]) }

/-- Data starting 2026-01-01 12:00 (day 20454), 6-hour samples over 5 days. -/
def pvHalfDayStart : PivotDF := mkMeterPivot (20454 * 86400000 + 43200000) 20

/-- Data starting 2026-01-01 00:00 exactly, 6-hour samples over 5 days. -/
def pvMidnightStart : PivotDF := mkMeterPivot (20454 * 86400000) 20

/-- A request window spanning only 10 hours: hourly samples from
2026-01-01 00:00 to 10:00. -/
def pvTenHours : PivotDF :=
  { dataCols := ["c"],
    rows := (List.range 11).map fun k => ((20454 * 86400000 : ℤ) + k * 3600000, [some (1 : ℚ)]) }

/-- The timestamp-column computation of `build_dataframes_from_widget_payload`
(src/v1/main.py lines 386-413), in epoch milliseconds: returns the pair
(raw-table timestamp source, pivot-table timestamp source).  When the request
aggregation is active (`agg != "NONE"`) and an interval is set (Python-truthy:
present and non-zero), each pivot timestamp is snapped to its interval start
via `ts - (ts % interval_ms)` (floor-mod); the raw table always keeps the
original API timestamps; otherwise both columns coincide. -/
def buildTsColumns (agg : String) (interval : Option ℤ) (rawTs : List ℤ) :
    List ℤ × List ℤ :=
  match interval with
  | some i =>
    if agg ≠ "NONE" ∧ i ≠ 0 then (rawTs, rawTs.map fun t => t - Int.fmod t i)
    else (rawTs, rawTs)
  | none => (rawTs, rawTs)

-- ── 1. Config & payload parsing (src/v1/main.py, src/v1/settings.py) ─────────

/-- Backend safety limits (src/v1/settings.py lines 84-87). -/
def DEFAULT_TIMEZONE : String := "Asia/Bangkok"

def MAX_ENTITIES : ℕ := 500

def MAX_KEYS : ℕ := 100

def MAX_POINTS_PER_KEY_PER_ENTITY : ℤ := 10000

/-- The `timeEpoch` object of the widget payload; absent fields are `none`. -/
structure TimeEpoch where
  startTs_ms : Option ℤ
  endTs_ms : Option ℤ
deriving DecidableEq

/-- One entry of the payload's `entities` list. -/
structure EntityIn where
  type : Option String
  id : Option String
  name : Option String
deriving DecidableEq

/-- The payload's `query` object. -/
structure QueryIn where
  agg : Option String
  interval : Option ℤ
  limit : Option ℤ
  order : Option String
deriving DecidableEq

/-- The widget payload fields consumed by parsing and validation.  A missing
`entities`/`keys` field behaves as the empty list (`payload.get(...) or []`);
keys are JSON values modelled as `none` (null) or a string. -/
structure WidgetPayload where
  timezone : Option String
  timeEpoch : Option TimeEpoch
  entities : List EntityIn
  keys : List (Option String)
  query : Option QueryIn
deriving DecidableEq

/-- A normalized entity produced by `_parse_payload` lines 81-87. -/
structure NormEntity where
  type : String
  id : String
  name : String
deriving DecidableEq

/-- Normalization of one entity: entities with a missing or falsy (empty) id
are dropped; the type defaults to "ASSET" and is upper-cased; the name falls
back to the id. -/
def normEntity (e : EntityIn) : Option NormEntity :=
  match e.id with
  | some eid =>
    if eid = "" then none
    else some { type := (pyOrStr e.type "ASSET").toUpper, id := eid,
                name := pyOrStr e.name eid }
  | none => none

/-- Normalization of one key (`_parse_payload` line 89): `None` keys and keys
that are empty after stripping whitespace are dropped; kept keys stay
unstripped. -/
def normKey (k : Option String) : Option String :=
  match k with
  | some s => if s.trim = "" then none else some s
  | none => none

/-- The result record of `_parse_payload` (fields relevant to the core). -/
structure ParsedPayload where
  timezone : String
  startTs : ℤ
  endTs : ℤ
  entities : List NormEntity
  keys : List String
  agg : String
  interval : Option ℤ
  limit : ℤ
  order : String
deriving DecidableEq

/-- `_parse_payload` (src/v1/main.py lines 61-111): truncates oversized
entity/key lists to the backend caps, caps the point limit, and normalizes
entities and keys, never raising for oversized or malformed entries.
`int(te.get("startTs_ms"))` on an absent field raises, modelled as `none`. -/
def parse_payload (payload : WidgetPayload) : Option ParsedPayload :=
  let te := payload.timeEpoch.getD ⟨none, none⟩
  match te.startTs_ms, te.endTs_ms with
  | some startTs, some endTs =>
    let q := payload.query.getD ⟨none, none, none, none⟩
    let limit0 := match q.limit with
      | some l => if l = 0 then MAX_POINTS_PER_KEY_PER_ENTITY else l
      | none => MAX_POINTS_PER_KEY_PER_ENTITY
    let entities1 := if payload.entities.length > MAX_ENTITIES then
        payload.entities.take MAX_ENTITIES else payload.entities
    let keys1 := if payload.keys.length > MAX_KEYS then
        payload.keys.take MAX_KEYS else payload.keys
    let limit := if limit0 > MAX_POINTS_PER_KEY_PER_ENTITY then
        MAX_POINTS_PER_KEY_PER_ENTITY else limit0
    some { timezone := pyOrStr payload.timezone DEFAULT_TIMEZONE,
           startTs := startTs, endTs := endTs,
           entities := entities1.filterMap normEntity,
           keys := keys1.filterMap normKey,
           agg := pyOrStr q.agg "NONE",
           interval := q.interval,
           limit := limit,
           order := (pyOrStr q.order "ASC").toUpper }
  | _, _ => none

/-- The fatal validation errors of `generate_pivot_excel_file`. -/
inductive ValidationError where
  | missingTimeRange
  | noEntities
  | noKeys
deriving DecidableEq

/-- `generate_pivot_excel_file` (src/v1/main.py lines 572-582): the public
entry point validates the payload and only then hands it to the rest of the
pipeline (fetch + build + export), abstracted here as the continuation
`run`. -/
def generate_pivot_excel_file {α : Type} (run : WidgetPayload → α)
    (payload : Option WidgetPayload) : Except ValidationError α :=
  let p := payload.getD ⟨none, none, [], [], none⟩
  let te := p.timeEpoch.getD ⟨none, none⟩
  if te.startTs_ms = none ∨ te.endTs_ms = none then .error .missingTimeRange
  else if p.entities = [] then .error .noEntities
  else if p.keys = [] then .error .noKeys
  else .ok (run p)

-- ── 2. ThingsBoard fetch (src/v1/main.py) ────────────────────────────────────

/-- A time-series point returned by the telemetry API. -/
structure TSPoint where
  ts : ℤ
  v : ℚ
deriving DecidableEq

/-- A per-key point-list mapping, as a key-ordered assoc list (a Python
dict preserves insertion order). -/
abbrev KeyedSeries := List (String × List TSPoint)

/-- `_MAX_INTERVALS_PER_REQUEST` (src/v1/main.py line 116). -/
def MAX_INTERVALS_PER_REQUEST : ℤ := 700

/-- The sub-ranges issued by `_fetch_timeseries`'s chunking loop (lines
151-162): starting from `start_ts`, each chunk covers
`[t, min(t + chunk_ms, end_ts)]` and the next begins where the previous
ended.  The `0 < chunkMs` condition is a termination guard (the Python loop
would not terminate otherwise; unreachable because chunking requires a
positive interval). -/
def chunkRanges (chunkMs endTs t : ℤ) : List (ℤ × ℤ) :=
  if h : t < endTs ∧ 0 < chunkMs then
    (t, min (t + chunkMs) endTs) :: chunkRanges chunkMs endTs (min (t + chunkMs) endTs)
  else []
termination_by (endTs - t).toNat
decreasing_by
  rcases le_total (t + chunkMs) endTs with h3 | h3
  · rw [min_eq_left h3]; omega
  · rw [min_eq_right h3]; omega

/-- `merged.setdefault(key, []).extend(points)` over one chunk response
(lines 160-161), preserving the dict's key insertion order. -/
def mergeChunkInto (m chunk : KeyedSeries) : KeyedSeries :=
  chunk.foldl (fun acc e =>
    if acc.any fun e2 => decide (e2.1 = e.1) then
      acc.map fun e2 => if e2.1 = e.1 then (e2.1, e2.2 ++ e.2) else e2
    else acc ++ [(e.1, e.2)]) m

/-- The chunked-fetch loop: one request per sub-range in time order, each
response merged into the accumulator; a failed request aborts the whole
fetch (the exception propagates). -/
def chunkedFetch (server : ℤ → ℤ → Except Unit KeyedSeries) :
    List (ℤ × ℤ) → KeyedSeries → Except Unit KeyedSeries
  | [], m => .ok m
  | r :: rest, m =>
    match server r.1 r.2 with
    | .error e => .error e
    | .ok chunk => chunkedFetch server rest (mergeChunkInto m chunk)

/-- `_fetch_timeseries` (lines 143-168): chunk when aggregation is active, an
interval is set (Python-truthy) and the interval count
`(end_ts - start_ts) / interval` exceeds the server cap; otherwise one
request over the whole range.  `server a b` stands for
`_fetch_timeseries_single` over `[a, b]` with the fixed key list, limit and
aggregation parameters. -/
def fetch_timeseries (server : ℤ → ℤ → Except Unit KeyedSeries)
    (startTs endTs : ℤ) (agg : String) (interval : Option ℤ) :
    Except Unit KeyedSeries :=
  match interval with
  | some i =>
    if agg ≠ "NONE" ∧ i ≠ 0 then
      if (MAX_INTERVALS_PER_REQUEST : ℚ) < ((endTs - startTs : ℤ) : ℚ) / (i : ℚ) then
        chunkedFetch server (chunkRanges (MAX_INTERVALS_PER_REQUEST * i) endTs startTs) []
      else server startTs endTs
    else server startTs endTs
  | none => server startTs endTs

/-- Series stored for key `k` in the underlying telemetry data. -/
def seriesOf (data : List (String × List TSPoint)) (k : String) : List TSPoint :=
  ((data.find? fun e => decide (e.1 = k)).map Prod.snd).getD []

/-- Number of aggregation buckets the server forms over `[lo, hi)` with
interval `i`: `ceil((hi - lo) / i)`. -/
def bucketCount (lo hi i : ℤ) : ℕ := (((hi - lo) + i - 1) / i).toNat

/-- Modelled from the spec: one aggregation bucket of the external telemetry
source (spec sections 4.1, 4.3, 6; the server itself is not part of this
repository).  The bucket starting at `s` covers raw points with
`s ≤ ts < min(s + i, hi)`; an empty bucket produces no point, a non-empty one
produces a single point labelled with the bucket midpoint `s + i/2` and
carrying the aggregate `f` of the bucket's raw values. -/
def bucketAt (f : List ℚ → ℚ) (pts : List TSPoint) (hi i s : ℤ) : Option TSPoint :=
  let b := pts.filter fun p =>
    decide (s ≤ p.ts) && decide (p.ts < s + i) && decide (p.ts < hi)
  if b = [] then none else some ⟨s + i / 2, f (b.map TSPoint.v)⟩

/-- Modelled from the spec: the aggregated series the external server returns
for one key over `[lo, hi]` with interval `i`: buckets start at `lo` and step
by `i`. -/
def aggSeries (f : List ℚ → ℚ) (pts : List TSPoint) (i lo hi : ℤ) : List TSPoint :=
  (List.range (bucketCount lo hi i)).filterMap fun (k : ℕ) =>
    bucketAt f pts hi i (lo + (k : ℤ) * i)

/-- Modelled from the spec: the external telemetry server's response to one
aggregated request: one entry per requested key. -/
def tbServer (data : List (String × List TSPoint)) (f : List ℚ → ℚ) (i : ℤ)
    (keys : List String) (lo hi : ℤ) : KeyedSeries :=
  keys.map fun k => (k, aggSeries f (seriesOf data k) i lo hi)

/-- An HTTP response, abstracted to its status code (`requests`' `r.ok` is
`status_code < 400`). -/
structure HttpResp where
  status : ℤ
deriving DecidableEq

def respOk (r : HttpResp) : Bool := decide (r.status < 400)

/-- Observable trace of one `_fetch_timeseries_single` call: number of HTTP
requests issued, whether the cached credential was refreshed, and the
outcome. -/
structure FetchTrace where
  requests : ℕ
  refreshed : Bool
  result : Except Unit HttpResp

/-- `_fetch_timeseries_single` (src/v1/main.py lines 119-140): `r1` is the
response to the initial request; only a 401 status deletes the cached token,
refreshes the credential and retries once (`r2` is the retry's response); any
non-ok final response makes `raise_for_status` abort the run, returning no
result. -/
def fetch_timeseries_single (r1 r2 : HttpResp) : FetchTrace :=
  if r1.status = 401 then
    { requests := 2, refreshed := true,
      result := if respOk r2 then Except.ok r2 else Except.error () }
  else
    { requests := 1, refreshed := false,
      result := if respOk r1 then Except.ok r1 else Except.error () }

-- ── 5. Pivot construction (build_dataframes_from_widget_payload, 404-422) ────

/-- One row of the pivot-source frame `df_pivot_src`: the (snapped) timestamp,
the entity label (`Asset Name`) and the per-key cells present in the row
(`none` value = null). -/
structure RawRow where
  ts : ℤ
  asset : String
  cells : List (String × Option ℚ)
deriving DecidableEq

/-- The value row `r` holds for key `k` (`none` when the key is absent from
the row or its value is null). -/
def cellLookup (r : RawRow) (k : String) : Option ℚ :=
  ((r.cells.find? fun e => decide (e.1 = k)).map Prod.snd).getD none

/-- `pivot_table(index="Timestamp", columns="Asset Name", values=keys,
aggfunc="first")` cell for `(t, a, k)`: the first non-null value among the
rows with that timestamp and asset, in the frame's row order (pandas GroupBy
`first` skips nulls). -/
def pivotCell (rows : List RawRow) (t : ℤ) (a k : String) : Option ℚ :=
  (rows.filterMap fun r =>
    if r.ts = t ∧ r.asset = a then cellLookup r k else none).head?

/-- Column renaming `f"{asset} {key}"` (line 416). -/
def colName (a k : String) : String := a ++ " " ++ k

/-- pandas `pivot_table(..., dropna=True)` keeps a `(key, asset)` column iff
some row of that asset has a non-null value for the key. -/
def hasData (rows : List RawRow) (a k : String) : Bool :=
  rows.any fun r => decide (r.asset = a) && (cellLookup r k).isSome

/-- The asset labels observed in the raw rows. -/
def observedAssets (rows : List RawRow) : List String :=
  (rows.map fun r => r.asset).dedup

/-- The data-column names of the pivot frame before reordering: one column
per `(key, asset)` pair with data. -/
def pivotColNames (rows : List RawRow) (keys : List String) : List String :=
  keys.flatMap fun k =>
    (observedAssets rows).filterMap fun a =>
      if hasData rows a k then some (colName a k) else none

/-- `c.split(" ", 1)` on the character list: the part before the first space
and, when a space exists, the rest after it. -/
def splitFirstSpace : List Char → List Char × Option (List Char)
  | [] => ([], none)
  | c :: rest =>
    if c = ' ' then ([], some rest)
    else (c :: (splitFirstSpace rest).1, (splitFirstSpace rest).2)

/-- The sort key of line 421:
`(c.split(" ", 1)[0], c.split(" ", 1)[1] if " " in c else "")`. -/
def sortKeyOf (s : String) : List Char × List Char :=
  ((splitFirstSpace s.toList).1, (splitFirstSpace s.toList).2.getD [])

/-- Lexicographic comparison of character lists by code point (Python string
`<=`). -/
def lexLeChars : List Char → List Char → Bool
  | [], _ => true
  | _ :: _, [] => false
  | a :: as, b :: bs =>
    if a.toNat < b.toNat then true
    else if b.toNat < a.toNat then false
    else lexLeChars as bs

/-- Python tuple comparison of the two sort keys. -/
def keyLe (c1 c2 : String) : Bool :=
  if (sortKeyOf c1).1 = (sortKeyOf c2).1 then
    lexLeChars (sortKeyOf c1).2 (sortKeyOf c2).2
  else lexLeChars (sortKeyOf c1).1 (sortKeyOf c2).1

/-- The final pivot column order (lines 419-422): `Timestamp` first, then the
column-map keys present in the frame in map order, then the remaining columns
sorted by `(entity, metric)` (Python's stable `sorted`). -/
def pivot_columns (rows : List RawRow) (keys columnMapKeys : List String) :
    List String :=
  let cols := pivotColNames rows keys
  let colOrder := "Timestamp" :: columnMapKeys.filter fun c => decide (c ∈ cols)
  let remaining := cols.filter fun c => decide (c ∉ colOrder)
  colOrder ++ remaining.mergeSort keyLe

/-- Every row of the resampled output arises from a bin label that passed the
completeness guard of `_resample_pivot`; the guard's conditions transfer to
the emitted row. -/
lemma resample_pivot_mem_guard {pv : PivotDF} {freq ws : String}
    {aggMap : List (String × String)} {d : ℤ} {cells : List (Option ℚ)}
    (h : (d, cells) ∈ resample_pivot pv freq aggMap ws) :
    ∃ L ∈ binLabels (freqStrOf freq ws) (minTsOf pv) (maxTsOf pv),
      normalize (minTsOf pv) ≤ (periodBounds freq L).1 ∧
      (periodBounds freq L).2 ≤ maxTsOf pv ∧
      ¬(dayOf (periodBounds freq L).1 = dayOf (minTsOf pv) ∧
          ¬ minTsOf pv = normalize (minTsOf pv)) ∧
      d = dayOf (periodBounds freq L).1 ∧
      cells = aggRowFor pv (freqStrOf freq ws) aggMap L := by
  unfold resample_pivot at h
  cases hrows : pv.rows.map Prod.fst with
  | nil => rw [hrows] at h; simp at h
  | cons t ts =>
    rw [hrows] at h
    simp only [List.mem_filterMap] at h
    obtain ⟨L, hL, hsome⟩ := h
    have hmin : minTsOf pv = ts.foldl min t := by unfold minTsOf; rw [hrows]
    have hmax : maxTsOf pv = ts.foldl max t := by unfold maxTsOf; rw [hrows]
    refine ⟨L, by rw [hmin, hmax]; exact hL, ?_⟩
    by_cases h1 : normalize (ts.foldl min t) ≤ (periodBounds freq L).1 ∧
        (periodBounds freq L).2 ≤ ts.foldl max t
    · rw [if_pos h1] at hsome
      by_cases h2 : dayOf (periodBounds freq L).1 = dayOf (ts.foldl min t) ∧
          ¬ ts.foldl min t = normalize (ts.foldl min t)
      · rw [if_pos h2] at hsome; exact absurd hsome (by simp)
      · rw [if_neg h2] at hsome
        have hd : d = dayOf (periodBounds freq L).1 ∧
            cells = aggRowFor pv (freqStrOf freq ws) aggMap L := by
          have := hsome
          injection this with h3
          exact ⟨congrArg Prod.fst h3 |>.symm, congrArg Prod.snd h3 |>.symm⟩
        rw [hmin, hmax]
        exact ⟨h1.1, h1.2, h2, hd.1, hd.2⟩
    · rw [if_neg h1] at hsome; exact absurd hsome (by simp)

/-- Claim C1: for every granularity in {Day, Week, Month, Year} and every
pivot table, each row emitted by the period resampler represents a fully
covered calendar period: its period start is at least the floor (midnight) of
the minimum pivot timestamp and its period end is at most the maximum pivot
timestamp; no row for a partially covered period is ever emitted, even when
it would be the only row. -/
theorem claim_C1_full_periods {pv : PivotDF} {freq ws : String}
    {aggMap : List (String × String)} {d : ℤ} {cells : List (Option ℚ)}
    (hfreq : freq ∈ ["D", "W", "MS", "YS"])
    (h : (d, cells) ∈ resample_pivot pv freq aggMap ws) :
    ∃ L, d = dayOf (periodBounds freq L).1 ∧
      normalize (minTsOf pv) ≤ (periodBounds freq L).1 ∧
      (periodBounds freq L).2 ≤ maxTsOf pv := by
  obtain ⟨L, _, h1, h2, _, hd, _⟩ := resample_pivot_mem_guard h
  exact ⟨L, hd, h1, h2⟩

theorem claim_C1_full_periods_witness :
    ("D" ∈ ["D", "W", "MS", "YS"]) ∧
    ((20454, [some (1030 : ℚ)]) ∈
      resample_pivot pvMidnightStart "D" [("default", "last")] "Sunday") ∧
    (∃ L, (20454 : ℤ) = dayOf (periodBounds "D" L).1 ∧
      normalize (minTsOf pvMidnightStart) ≤ (periodBounds "D" L).1 ∧
      (periodBounds "D" L).2 ≤ maxTsOf pvMidnightStart) := by
  have hlist : resample_pivot pvMidnightStart "D" [("default", "last")] "Sunday" =
      [(20454, [some 1030]), (20455, [some 1070]), (20456, [some 1110]),
        (20457, [some 1150])] := by decide
  have hmem : (20454, [some (1030 : ℚ)]) ∈
      resample_pivot pvMidnightStart "D" [("default", "last")] "Sunday" := by
    rw [hlist]; exact List.mem_cons_self _ _
  exact ⟨by decide, hmem, claim_C1_full_periods (by decide) hmem⟩

/-- Claim C2: when the pivot's earliest timestamp is not exactly midnight, any
resampled period starting on the data's start date is dropped; concretely,
for data starting 2026-01-01 12:00 with 6-hour samples over 5 days the first
daily aggregate row is dated 2026-01-02 (day 20455), while data starting
exactly at midnight keeps its 2026-01-01 (day 20454) daily row. -/
theorem claim_C2_partial_first_day :
    (∀ (pv : PivotDF) (freq : String) (aggMap : List (String × String))
        (ws : String) (d : ℤ) (cells : List (Option ℚ)),
        ¬ minTsOf pv = normalize (minTsOf pv) →
        (d, cells) ∈ resample_pivot pv freq aggMap ws →
        d ≠ dayOf (minTsOf pv)) ∧
    (resample_pivot pvHalfDayStart "D" [("default", "last")] "Sunday").head?.map Prod.fst =
      some (daysFromCivil 2026 1 2) ∧
    (resample_pivot pvMidnightStart "D" [("default", "last")] "Sunday").head?.map Prod.fst =
      some (daysFromCivil 2026 1 1) := by
  refine ⟨?_, by decide, by decide⟩
  intro pv freq aggMap ws d cells hne h
  obtain ⟨L, _, _, _, hguard, hd, _⟩ := resample_pivot_mem_guard h
  intro hcontra
  exact hguard ⟨hd ▸ hcontra, hne⟩

theorem claim_C2_partial_first_day_witness :
    (¬ minTsOf pvHalfDayStart = normalize (minTsOf pvHalfDayStart)) ∧
    ((20455, [some (1050 : ℚ)]) ∈
      resample_pivot pvHalfDayStart "D" [("default", "last")] "Sunday") ∧
    (20455 : ℤ) ≠ dayOf (minTsOf pvHalfDayStart) := by
  have hlist : resample_pivot pvHalfDayStart "D" [("default", "last")] "Sunday" =
      [(20455, [some 1050]), (20456, [some 1090]), (20457, [some 1130]),
        (20458, [some 1170])] := by decide
  have hmem : (20455, [some (1050 : ℚ)]) ∈
      resample_pivot pvHalfDayStart "D" [("default", "last")] "Sunday" := by
    rw [hlist]; exact List.mem_cons_self _ _
  exact ⟨by decide, hmem,
    claim_C2_partial_first_day.1 pvHalfDayStart "D" [("default", "last")] "Sunday"
      20455 [some (1050 : ℚ)] (by decide) hmem⟩

/-- `pyOrStr` on a non-empty string keeps the string. -/
lemma pyOrStr_some (s b : String) (h : s ≠ "") : pyOrStr (some s) b = s := by
  show (if s = "" then b else s) = s
  rw [if_neg h]

/-- `pyOrStr` on `none` gives the fallback. -/
lemma pyOrStr_none (b : String) : pyOrStr none b = b := rfl

/-- Index correspondence for the aggregated row: the cell at position `j`
is the aggregation dict's function for column `j` applied to that column's
group values. -/
lemma aggRowGo_getElem {rows : List (ℤ × List (Option ℚ))} {fs : String} {L : ℤ}
    {aggMap : List (String × String)} :
    ∀ (cols : List String) (j0 j : ℕ) (c : String), cols[j]? = some c →
      (aggRowGo rows fs L (build_agg_dict cols aggMap) j0)[j]? =
        some (applyAgg (get_agg_func c aggMap) (groupVals rows fs L (j0 + j))) := by
  intro cols
  induction cols with
  | nil => intro j0 j c hc; simp at hc
  | cons c0 cs ih =>
    intro j0 j c hc
    have hunfold : aggRowGo rows fs L (build_agg_dict (c0 :: cs) aggMap) j0 =
        applyAgg (get_agg_func c0 aggMap) (groupVals rows fs L j0) ::
          aggRowGo rows fs L (build_agg_dict cs aggMap) (j0 + 1) := by
      simp [build_agg_dict, aggRowGo]
    rw [hunfold]
    cases j with
    | zero =>
      simp only [List.getElem?_cons_zero, Option.some.injEq] at hc
      subst hc
      simp
    | succ j =>
      simp only [List.getElem?_cons_succ] at hc ⊢
      have h2 := ih (j0 + 1) j c hc
      have harith : j0 + 1 + j = j0 + (j + 1) := by omega
      rw [harith] at h2
      exact h2

/-- Claim C5: the aggregation function applied during resampling to each data
column is the aggregation map's per-key entry for that column, falling back to
the map's "default" entry when the key is absent, falling back to "mean" when
no default is configured (aggregation maps carry the configured function
names, per the data model). -/
theorem claim_C5_agg_fallback :
    (∀ (m : List (String × String)), (∀ e ∈ m, e.2 ∈ aggFuncNames) →
      ∀ c : String,
        (∀ f, dictGet m c = some f → get_agg_func c m = f) ∧
        (dictGet m c = none → ∀ g, dictGet m "default" = some g →
          get_agg_func c m = g) ∧
        (dictGet m c = none → dictGet m "default" = none →
          get_agg_func c m = "mean")) ∧
    (∀ (pv : PivotDF) (freq : String) (aggMap : List (String × String))
        (ws : String) (d : ℤ) (cells : List (Option ℚ)) (j : ℕ) (c : String),
        (d, cells) ∈ resample_pivot pv freq aggMap ws →
        pv.dataCols[j]? = some c →
        ∃ L ∈ binLabels (freqStrOf freq ws) (minTsOf pv) (maxTsOf pv),
          cells[j]? = some (applyAgg (get_agg_func c aggMap)
            (groupVals pv.rows (freqStrOf freq ws) L j))) := by
  constructor
  · intro m hdom c
    have hval : ∀ e, e ∈ m → e.2 ≠ "" := by
      intro e he h0
      have h6 := hdom e he
      rw [h0] at h6
      simp [aggFuncNames] at h6
    refine ⟨?_, ?_, ?_⟩
    · intro f hf
      have hne : f ≠ "" := by
        unfold dictGet at hf
        cases hfind : m.find? fun e => decide (e.1 = c) with
        | none => rw [hfind] at hf; exact Option.noConfusion hf
        | some e =>
          rw [hfind] at hf
          have he : e ∈ m := List.mem_of_find?_eq_some hfind
          have : e.2 = f := Option.some.inj hf
          exact this ▸ hval e he
      unfold get_agg_func
      rw [hf, pyOrStr_some _ _ hne]
    · intro hnone g hg
      have hne : g ≠ "" := by
        unfold dictGet at hg
        cases hfind : m.find? fun e => decide (e.1 = "default") with
        | none => rw [hfind] at hg; exact Option.noConfusion hg
        | some e =>
          rw [hfind] at hg
          have he : e ∈ m := List.mem_of_find?_eq_some hfind
          have : e.2 = g := Option.some.inj hg
          exact this ▸ hval e he
      unfold get_agg_func
      rw [hnone, hg, pyOrStr_none, pyOrStr_some _ _ hne]
    · intro hnone hdefnone
      unfold get_agg_func
      rw [hnone, hdefnone]
      rfl
  · intro pv freq aggMap ws d cells j c hmem hcol
    obtain ⟨L, hL, _, _, _, _, hcells⟩ := resample_pivot_mem_guard hmem
    refine ⟨L, hL, ?_⟩
    rw [hcells]
    unfold aggRowFor
    have := @aggRowGo_getElem pv.rows (freqStrOf freq ws) L aggMap
      pv.dataCols 0 j c hcol
    rwa [Nat.zero_add] at this

theorem claim_C5_agg_fallback_witness :
    ((∀ e ∈ [("a", "sum")], e.2 ∈ aggFuncNames) ∧
      dictGet [("a", "sum")] "a" = some "sum" ∧
      get_agg_func "a" [("a", "sum")] = "sum") ∧
    ((20454, [some (1030 : ℚ)]) ∈
      resample_pivot pvMidnightStart "D" [("default", "last")] "Sunday") ∧
    (∃ L ∈ binLabels (freqStrOf "D" "Sunday") (minTsOf pvMidnightStart)
        (maxTsOf pvMidnightStart),
      ([some (1030 : ℚ)] : List (Option ℚ))[0]? =
        some (applyAgg (get_agg_func "asset1 key1" [("default", "last")])
          (groupVals pvMidnightStart.rows (freqStrOf "D" "Sunday") L 0))) := by
  have hdom : ∀ e ∈ [("a", "sum")], e.2 ∈ aggFuncNames := by
    intro e he; fin_cases he; decide
  have hlist : resample_pivot pvMidnightStart "D" [("default", "last")] "Sunday" =
      [(20454, [some 1030]), (20455, [some 1070]), (20456, [some 1110]),
        (20457, [some 1150])] := by decide
  have hmem : (20454, [some (1030 : ℚ)]) ∈
      resample_pivot pvMidnightStart "D" [("default", "last")] "Sunday" := by
    rw [hlist]; exact List.mem_cons_self _ _
  exact ⟨⟨hdom, by decide,
      (claim_C5_agg_fallback.1 [("a", "sum")] hdom "a").1 "sum" (by decide)⟩,
    hmem,
    claim_C5_agg_fallback.2 pvMidnightStart "D" [("default", "last")] "Sunday"
      20454 [some (1030 : ℚ)] 0 "asset1 key1" hmem (by decide)⟩

/-- Claim C9: a granularity for which zero periods survive the completeness
filter yields an empty resampled table and is omitted entirely from the
aggregate-sheet mapping; no granularity is ever included with an empty table;
and a concrete request window spanning only 10 hours produces no aggregate
sheet at all. -/
theorem claim_C9_empty_omitted :
    (∀ (pv : PivotDF) (aggMap : List (String × String)) (ws f k : String),
        (f, k) ∈ freqSheetKeys →
        resample_pivot pv f aggMap ws = [] →
        ∀ t, (k, t) ∉ aggSheets pv aggMap ws) ∧
    (∀ (pv : PivotDF) (aggMap : List (String × String)) (ws k : String) t,
        (k, t) ∈ aggSheets pv aggMap ws → t ≠ []) ∧
    aggSheets pvTenHours [("default", "mean")] "Sunday" = [] := by
  refine ⟨?_, ?_, by decide⟩
  · intro pv aggMap ws f k hfk hempty t hmem
    unfold aggSheets at hmem
    rw [List.mem_filterMap] at hmem
    obtain ⟨fk, hfk2, hsome⟩ := hmem
    by_cases hc : resample_pivot pv fk.1 aggMap ws = []
    · rw [if_pos hc] at hsome; exact Option.noConfusion hsome
    · simp only [if_neg hc] at hsome
      have hkey : fk.2 = k := congrArg Prod.fst (Option.some.inj hsome)
      have hval : resample_pivot pv fk.1 aggMap ws = t :=
        congrArg Prod.snd (Option.some.inj hsome)
      have hfeq : fk.1 = f := by
        fin_cases hfk <;> fin_cases hfk2 <;> simp_all
      rw [hfeq, hempty] at hc
      exact hc rfl
  · intro pv aggMap ws k t hmem
    unfold aggSheets at hmem
    rw [List.mem_filterMap] at hmem
    obtain ⟨fk, _, hsome⟩ := hmem
    by_cases hc : resample_pivot pv fk.1 aggMap ws = []
    · rw [if_pos hc] at hsome; exact Option.noConfusion hsome
    · simp only [if_neg hc] at hsome
      have hval : resample_pivot pv fk.1 aggMap ws = t :=
        congrArg Prod.snd (Option.some.inj hsome)
      rw [hval] at hc
      exact hc

theorem claim_C9_empty_omitted_witness :
    (("D", "daily") ∈ freqSheetKeys) ∧
    (resample_pivot pvTenHours "D" [("default", "mean")] "Sunday" = []) ∧
    (("daily", ([] : List (ℤ × List (Option ℚ)))) ∉
      aggSheets pvTenHours [("default", "mean")] "Sunday") :=
  ⟨by decide, by decide,
    claim_C9_empty_omitted.1 pvTenHours [("default", "mean")] "Sunday" "D" "daily"
      (by decide) (by decide) []⟩

/-- Claim C4: with active aggregation and a set interval `i > 0`, every pivot
timestamp is snapped to its bucket start (`ts - ts % i`, hence divisible by
`i`) while the raw table retains the original API timestamps; with inactive
aggregation or no interval, pivot and raw timestamps are identical. -/
theorem claim_C4_snapping (agg : String) (i : ℤ) (rawTs : List ℤ)
    (hagg : agg ≠ "NONE") (hI : 0 < i) :
    (buildTsColumns agg (some i) rawTs).1 = rawTs ∧
    (buildTsColumns agg (some i) rawTs).2 = rawTs.map (fun t => t - Int.fmod t i) ∧
    (∀ t ∈ (buildTsColumns agg (some i) rawTs).2, Int.fmod t i = 0) ∧
    (∀ (agg2 : String) (interval2 : Option ℤ) (raw2 : List ℤ),
      agg2 = "NONE" ∨ interval2 = none ∨ interval2 = some 0 →
      (buildTsColumns agg2 interval2 raw2).2 = (buildTsColumns agg2 interval2 raw2).1) := by
  have hcond : agg ≠ "NONE" ∧ i ≠ 0 := ⟨hagg, ne_of_gt hI⟩
  have hunfold : buildTsColumns agg (some i) rawTs =
      (rawTs, rawTs.map fun t => t - Int.fmod t i) := by
    show (if agg ≠ "NONE" ∧ i ≠ 0 then _ else _) = _
    rw [if_pos hcond]
  refine ⟨by rw [hunfold], by rw [hunfold], ?_, ?_⟩
  · intro t ht
    rw [hunfold] at ht
    simp only [List.mem_map] at ht
    obtain ⟨s, _, hs⟩ := ht
    have hdef : s - Int.fmod s i = i * Int.fdiv s i := by
      rw [Int.fmod_def]; ring
    rw [← hs, hdef]
    exact Int.mul_fmod_right i (Int.fdiv s i)
  · intro agg2 interval2 raw2 hcase
    rcases hcase with h | h | h
    · cases interval2 with
      | none => rfl
      | some j =>
        show (if agg2 ≠ "NONE" ∧ j ≠ 0 then (raw2, raw2.map fun t => t - Int.fmod t j)
            else (raw2, raw2)).2 =
          (if agg2 ≠ "NONE" ∧ j ≠ 0 then (raw2, raw2.map fun t => t - Int.fmod t j)
            else (raw2, raw2)).1
        rw [if_neg (by simp [h])]
    · rw [h]; rfl
    · rw [h]
      show (if agg2 ≠ "NONE" ∧ (0 : ℤ) ≠ 0 then (raw2, raw2.map fun t => t - Int.fmod t 0)
          else (raw2, raw2)).2 =
        (if agg2 ≠ "NONE" ∧ (0 : ℤ) ≠ 0 then (raw2, raw2.map fun t => t - Int.fmod t 0)
          else (raw2, raw2)).1
      rw [if_neg (by simp)]

theorem claim_C4_snapping_witness :
    ("AVG" ≠ "NONE") ∧ ((0 : ℤ) < 60000) ∧
    ((buildTsColumns "AVG" (some 60000) [30000, 90001]).1 = [30000, 90001] ∧
      (buildTsColumns "AVG" (some 60000) [30000, 90001]).2 =
        [30000, 90001].map (fun t => t - Int.fmod t 60000) ∧
      (∀ t ∈ (buildTsColumns "AVG" (some 60000) [30000, 90001]).2,
        Int.fmod t 60000 = 0) ∧
      (∀ (agg2 : String) (interval2 : Option ℤ) (raw2 : List ℤ),
        agg2 = "NONE" ∨ interval2 = none ∨ interval2 = some 0 →
        (buildTsColumns agg2 interval2 raw2).2 =
          (buildTsColumns agg2 interval2 raw2).1)) :=
  ⟨by decide, by decide,
    claim_C4_snapping "AVG" 60000 [30000, 90001] (by decide) (by decide)⟩

/-- Capping helper: `if x > cap then cap else x` is at most `cap`. -/
lemma capLe (x cap : ℤ) : (if x > cap then cap else x) ≤ cap := by
  split <;> omega

/-- Truncation helper: `if length > n then take n else id` is `take n`. -/
lemma truncEq {α : Type} (l : List α) (n : ℕ) :
    (if l.length > n then l.take n else l) = l.take n := by
  split
  · rfl
  · rw [List.take_of_length_le (by omega)]

/-- A normalized entity always carries a non-empty id. -/
lemma normEntity_id {e : EntityIn} {en : NormEntity}
    (h : normEntity e = some en) : en.id ≠ "" := by
  unfold normEntity at h
  cases hid : e.id with
  | none => rw [hid] at h; exact Option.noConfusion h
  | some eid =>
    rw [hid] at h
    have h2 : (if eid = "" then (none : Option NormEntity)
        else some { type := (pyOrStr e.type "ASSET").toUpper, id := eid,
                    name := pyOrStr e.name eid }) = some en := h
    by_cases h0 : eid = ""
    · rw [if_pos h0] at h2; exact Option.noConfusion h2
    · rw [if_neg h0] at h2
      have := Option.some.inj h2
      rw [← this]
      exact h0

/-- A kept key is never whitespace-only. -/
lemma normKey_trim {k : Option String} {s : String}
    (h : normKey k = some s) : s.trim ≠ "" := by
  unfold normKey at h
  cases k with
  | none => exact Option.noConfusion h
  | some s0 =>
    have h2 : (if s0.trim = "" then (none : Option String) else some s0) = some s := h
    by_cases h0 : s0.trim = ""
    · rw [if_pos h0] at h2; exact Option.noConfusion h2
    · rw [if_neg h0] at h2
      have := Option.some.inj h2
      rw [← this]
      exact h0

/-- Claim C10: parsing silently truncates oversized inputs (first 500
entities, first 100 keys, point limit capped at 10000), drops entities
without an id and null/whitespace-only keys, and never raises for an
oversized or partially malformed entity/key list. -/
theorem claim_C10_silent_truncation (payload : WidgetPayload) (s e : ℤ)
    (hte : payload.timeEpoch = some ⟨some s, some e⟩) :
    ∃ p, parse_payload payload = some p ∧
      p.entities = (payload.entities.take MAX_ENTITIES).filterMap normEntity ∧
      p.keys = (payload.keys.take MAX_KEYS).filterMap normKey ∧
      p.entities.length ≤ 500 ∧
      p.keys.length ≤ 100 ∧
      p.limit ≤ 10000 ∧
      (∀ en ∈ p.entities, en.id ≠ "") ∧
      (∀ k ∈ p.keys, k.trim ≠ "") := by
  unfold parse_payload
  rw [hte]
  simp only [Option.getD_some]
  refine ⟨_, rfl, ?_, ?_, ?_, ?_, ?_, ?_, ?_⟩
  · simp only [truncEq]
  · simp only [truncEq]
  · calc ((if payload.entities.length > MAX_ENTITIES then
            payload.entities.take MAX_ENTITIES else payload.entities).filterMap
              normEntity).length
        ≤ (if payload.entities.length > MAX_ENTITIES then
            payload.entities.take MAX_ENTITIES else payload.entities).length :=
          List.length_filterMap_le _ _
      _ ≤ 500 := by rw [truncEq]; exact le_trans (List.length_take_le _ _) (by norm_num [MAX_ENTITIES])
  · calc ((if payload.keys.length > MAX_KEYS then
            payload.keys.take MAX_KEYS else payload.keys).filterMap normKey).length
        ≤ (if payload.keys.length > MAX_KEYS then
            payload.keys.take MAX_KEYS else payload.keys).length :=
          List.length_filterMap_le _ _
      _ ≤ 100 := by rw [truncEq]; exact le_trans (List.length_take_le _ _) (by norm_num [MAX_KEYS])
  · exact capLe _ _
  · intro en hen
    rw [List.mem_filterMap] at hen
    obtain ⟨e0, _, h0⟩ := hen
    exact normEntity_id h0
  · intro k hk
    rw [List.mem_filterMap] at hk
    obtain ⟨k0, _, h0⟩ := hk
    exact normKey_trim h0

/-- Claim C8: a payload with a missing time range, an empty entity list, or
an empty key list makes the public entry point fail with a validation error
before any fetch occurs: the same error results for every possible
continuation of the pipeline. -/
theorem claim_C8_validation (payload : Option WidgetPayload)
    (hbad :
      ((payload.getD ⟨none, none, [], [], none⟩).timeEpoch.getD
          ⟨none, none⟩).startTs_ms = none ∨
      ((payload.getD ⟨none, none, [], [], none⟩).timeEpoch.getD
          ⟨none, none⟩).endTs_ms = none ∨
      (payload.getD ⟨none, none, [], [], none⟩).entities = [] ∨
      (payload.getD ⟨none, none, [], [], none⟩).keys = []) :
    ∃ err, ∀ (run : WidgetPayload → ℕ),
      generate_pivot_excel_file run payload = .error err := by
  by_cases h1 : ((payload.getD ⟨none, none, [], [], none⟩).timeEpoch.getD
      ⟨none, none⟩).startTs_ms = none ∨
      ((payload.getD ⟨none, none, [], [], none⟩).timeEpoch.getD
        ⟨none, none⟩).endTs_ms = none
  · refine ⟨.missingTimeRange, fun run => ?_⟩
    unfold generate_pivot_excel_file
    rw [if_pos h1]
  · refine ?_
    have h1a : ¬ ((payload.getD ⟨none, none, [], [], none⟩).timeEpoch.getD
        ⟨none, none⟩).startTs_ms = none := fun h => h1 (Or.inl h)
    have h1b : ¬ ((payload.getD ⟨none, none, [], [], none⟩).timeEpoch.getD
        ⟨none, none⟩).endTs_ms = none := fun h => h1 (Or.inr h)
    by_cases h2 : (payload.getD ⟨none, none, [], [], none⟩).entities = []
    · refine ⟨.noEntities, fun run => ?_⟩
      unfold generate_pivot_excel_file
      rw [if_neg h1, if_pos h2]
    · by_cases h3 : (payload.getD ⟨none, none, [], [], none⟩).keys = []
      · refine ⟨.noKeys, fun run => ?_⟩
        unfold generate_pivot_excel_file
        rw [if_neg h1, if_neg h2, if_pos h3]
      · rcases hbad with h | h | h | h
        · exact absurd h h1a
        · exact absurd h h1b
        · exact absurd h h2
        · exact absurd h h3

theorem claim_C8_validation_witness :
    (((some (WidgetPayload.mk none none [] [] none) : Option WidgetPayload).getD
        ⟨none, none, [], [], none⟩).timeEpoch.getD ⟨none, none⟩).startTs_ms = none ∧
    (∃ err, ∀ (run : WidgetPayload → ℕ),
      generate_pivot_excel_file run (some (WidgetPayload.mk none none [] [] none)) =
        .error err) :=
  ⟨rfl, claim_C8_validation (some (WidgetPayload.mk none none [] [] none))
    (Or.inl rfl)⟩

theorem claim_C10_silent_truncation_witness :
    ((WidgetPayload.mk none (some ⟨some 0, some 3600000⟩)
        [⟨none, some "dev1", none⟩, ⟨none, none, some "noid"⟩]
        [some "kA", none, some "  "] none).timeEpoch =
      some ⟨some 0, some 3600000⟩) ∧
    (∃ p, parse_payload (WidgetPayload.mk none (some ⟨some 0, some 3600000⟩)
        [⟨none, some "dev1", none⟩, ⟨none, none, some "noid"⟩]
        [some "kA", none, some "  "] none) = some p ∧
      p.entities = (((WidgetPayload.mk none (some ⟨some 0, some 3600000⟩)
        [⟨none, some "dev1", none⟩, ⟨none, none, some "noid"⟩]
        [some "kA", none, some "  "] none).entities).take MAX_ENTITIES).filterMap
          normEntity ∧
      p.keys = (((WidgetPayload.mk none (some ⟨some 0, some 3600000⟩)
        [⟨none, some "dev1", none⟩, ⟨none, none, some "noid"⟩]
        [some "kA", none, some "  "] none).keys).take MAX_KEYS).filterMap normKey ∧
      p.entities.length ≤ 500 ∧
      p.keys.length ≤ 100 ∧
      p.limit ≤ 10000 ∧
      (∀ en ∈ p.entities, en.id ≠ "") ∧
      (∀ k ∈ p.keys, k.trim ≠ "")) :=
  ⟨rfl, claim_C10_silent_truncation _ 0 3600000 rfl⟩

/-- Claim C7 counterexample: the claim says every non-success response
triggers exactly one retry after a credential refresh, but a 500 response
(non-success) is fatal immediately: no refresh and no second request. -/
theorem claim_C7_counterexample :
    respOk ⟨500⟩ = false ∧
    ¬ ((fetch_timeseries_single ⟨500⟩ ⟨200⟩).refreshed = true ∧
        (fetch_timeseries_single ⟨500⟩ ⟨200⟩).requests = 2) := by
  constructor
  · decide
  · intro h
    have : (fetch_timeseries_single ⟨500⟩ ⟨200⟩).refreshed = false := by
      unfold fetch_timeseries_single
      rw [if_neg (by decide)]
    rw [this] at h
    exact Bool.false_ne_true h.1

/-- Claim C7 (amended): only a 401 (unauthorized) response triggers the
credential refresh and exactly one retry; any other non-success response is
fatal immediately with no retry; after the retry a non-ok response is fatal;
the call returns a body only when the final response is ok, and a failed
sub-request makes the whole chunked fetch fail with no partial result. -/
theorem claim_C7_retry_semantics :
    (∀ r1 r2 : HttpResp, r1.status = 401 →
      (fetch_timeseries_single r1 r2).refreshed = true ∧
      (fetch_timeseries_single r1 r2).requests = 2 ∧
      (fetch_timeseries_single r1 r2).result =
        (if respOk r2 then Except.ok r2 else Except.error ())) ∧
    (∀ r1 r2 : HttpResp, r1.status ≠ 401 → respOk r1 = false →
      (fetch_timeseries_single r1 r2).refreshed = false ∧
      (fetch_timeseries_single r1 r2).requests = 1 ∧
      (fetch_timeseries_single r1 r2).result = Except.error ()) ∧
    (∀ r1 r2 : HttpResp,
      (fetch_timeseries_single r1 r2).result = Except.error () ↔
        respOk (if r1.status = 401 then r2 else r1) = false) ∧
    (∀ (server : ℤ → ℤ → Except Unit KeyedSeries) (ranges : List (ℤ × ℤ))
        (m : KeyedSeries),
      (∃ r ∈ ranges, server r.1 r.2 = Except.error ()) →
      chunkedFetch server ranges m = Except.error ()) := by
  refine ⟨?_, ?_, ?_, ?_⟩
  · intro r1 r2 h
    unfold fetch_timeseries_single
    rw [if_pos h]
    exact ⟨rfl, rfl, rfl⟩
  · intro r1 r2 h hok
    unfold fetch_timeseries_single
    rw [if_neg h]
    refine ⟨rfl, rfl, ?_⟩
    show (if respOk r1 then Except.ok r1 else Except.error ()) = Except.error ()
    rw [hok]
    rfl
  · intro r1 r2
    by_cases h : r1.status = 401
    · unfold fetch_timeseries_single
      rw [if_pos h, if_pos h]
      show (if respOk r2 then Except.ok r2 else Except.error ()) = Except.error () ↔ _
      cases hok : respOk r2 with
      | false => simp
      | true => simp
    · unfold fetch_timeseries_single
      rw [if_neg h, if_neg h]
      show (if respOk r1 then Except.ok r1 else Except.error ()) = Except.error () ↔ _
      cases hok : respOk r1 with
      | false => simp
      | true => simp
  · intro server ranges
    induction ranges with
    | nil => intro m h; obtain ⟨r, hr, _⟩ := h; exact absurd hr (List.not_mem_nil r)
    | cons r0 rest ih =>
      intro m h
      obtain ⟨r, hr, herr⟩ := h
      show (match server r0.1 r0.2 with
        | .error e => Except.error e
        | .ok chunk => chunkedFetch server rest (mergeChunkInto m chunk)) = _
      cases hs : server r0.1 r0.2 with
      | error e => rfl
      | ok chunk =>
        rcases List.mem_cons.mp hr with heq | hmem
        · rw [heq, hs] at herr; exact absurd herr (by simp)
        · exact ih (mergeChunkInto m chunk) ⟨r, hmem, herr⟩

theorem claim_C7_retry_semantics_witness :
    ((401 : ℤ) = 401 ∧
      (fetch_timeseries_single ⟨401⟩ ⟨500⟩).refreshed = true ∧
      (fetch_timeseries_single ⟨401⟩ ⟨500⟩).requests = 2 ∧
      (fetch_timeseries_single ⟨401⟩ ⟨500⟩).result =
        (if respOk ⟨500⟩ then Except.ok ⟨500⟩ else Except.error ())) ∧
    ((500 : ℤ) ≠ 401 ∧ respOk ⟨500⟩ = false ∧
      (fetch_timeseries_single ⟨500⟩ ⟨200⟩).refreshed = false ∧
      (fetch_timeseries_single ⟨500⟩ ⟨200⟩).requests = 1 ∧
      (fetch_timeseries_single ⟨500⟩ ⟨200⟩).result = Except.error ()) := by
  have h1 := claim_C7_retry_semantics.1 ⟨401⟩ ⟨500⟩ rfl
  have h2 := claim_C7_retry_semantics.2.1 ⟨500⟩ ⟨200⟩ (by decide) (by decide)
  exact ⟨⟨rfl, h1⟩, ⟨by decide, by decide, h2⟩⟩

/-- Characters with equal code points are equal. -/
lemma char_toNat_inj {a b : Char} (h : a.toNat = b.toNat) : a = b := by
  rw [← Char.ofNat_toNat a, h, Char.ofNat_toNat]

/-- Unfolding of the lexicographic comparison on a cons pair. -/
lemma lexLeChars_cons_iff {a b : Char} {as bs : List Char} :
    lexLeChars (a :: as) (b :: bs) = true ↔
      (a.toNat < b.toNat ∨ (a.toNat = b.toNat ∧ lexLeChars as bs = true)) := by
  show (if a.toNat < b.toNat then true
    else if b.toNat < a.toNat then false else lexLeChars as bs) = true ↔ _
  by_cases h1 : a.toNat < b.toNat
  · simp [h1]
  · by_cases h2 : b.toNat < a.toNat
    · simp [h1, h2]; omega
    · have heq : a.toNat = b.toNat := by omega
      simp [h1, h2, heq]

lemma lexLeChars_total : ∀ a b : List Char,
    lexLeChars a b = true ∨ lexLeChars b a = true
  | [], _ => Or.inl rfl
  | _ :: _, [] => Or.inr rfl
  | a :: as, b :: bs => by
    rcases Nat.lt_trichotomy a.toNat b.toNat with h | h | h
    · exact Or.inl (lexLeChars_cons_iff.mpr (Or.inl h))
    · rcases lexLeChars_total as bs with ih | ih
      · exact Or.inl (lexLeChars_cons_iff.mpr (Or.inr ⟨h, ih⟩))
      · exact Or.inr (lexLeChars_cons_iff.mpr (Or.inr ⟨h.symm, ih⟩))
    · exact Or.inr (lexLeChars_cons_iff.mpr (Or.inl h))

lemma lexLeChars_antisymm : ∀ a b : List Char,
    lexLeChars a b = true → lexLeChars b a = true → a = b
  | [], [], _, _ => rfl
  | [], _ :: _, _, h2 => by exact absurd h2 (by simp [lexLeChars])
  | _ :: _, [], h1, _ => by exact absurd h1 (by simp [lexLeChars])
  | a :: as, b :: bs, h1, h2 => by
    rcases lexLeChars_cons_iff.mp h1 with h | ⟨heq, htail⟩
    · rcases lexLeChars_cons_iff.mp h2 with h2a | ⟨h2eq, _⟩
      · omega
      · omega
    · rcases lexLeChars_cons_iff.mp h2 with h2a | ⟨_, h2tail⟩
      · omega
      · rw [char_toNat_inj heq, lexLeChars_antisymm as bs htail h2tail]

lemma lexLeChars_trans : ∀ a b c : List Char,
    lexLeChars a b = true → lexLeChars b c = true → lexLeChars a c = true
  | [], _, _, _, _ => rfl
  | _ :: _, [], _, h1, _ => by exact absurd h1 (by simp [lexLeChars])
  | _ :: _, _ :: _, [], _, h2 => by exact absurd h2 (by simp [lexLeChars])
  | a :: as, b :: bs, c :: cs, h1, h2 => by
    rcases lexLeChars_cons_iff.mp h1 with h | ⟨heq, htail⟩ <;>
      rcases lexLeChars_cons_iff.mp h2 with h2a | ⟨h2eq, h2tail⟩
    · exact lexLeChars_cons_iff.mpr (Or.inl (by omega))
    · exact lexLeChars_cons_iff.mpr (Or.inl (by omega))
    · exact lexLeChars_cons_iff.mpr (Or.inl (by omega))
    · exact lexLeChars_cons_iff.mpr
        (Or.inr ⟨by omega, lexLeChars_trans as bs cs htail h2tail⟩)

lemma keyLe_total (x y : String) : keyLe x y || keyLe y x := by
  unfold keyLe
  by_cases h : (sortKeyOf x).1 = (sortKeyOf y).1
  · rw [if_pos h, if_pos h.symm]
    rcases lexLeChars_total (sortKeyOf x).2 (sortKeyOf y).2 with h2 | h2 <;>
      simp [h2]
  · rw [if_neg h, if_neg (fun hh => h hh.symm)]
    rcases lexLeChars_total (sortKeyOf x).1 (sortKeyOf y).1 with h2 | h2 <;>
      simp [h2]

lemma keyLe_trans (x y z : String) :
    keyLe x y = true → keyLe y z = true → keyLe x z = true := by
  unfold keyLe
  by_cases hxy : (sortKeyOf x).1 = (sortKeyOf y).1 <;>
    by_cases hyz : (sortKeyOf y).1 = (sortKeyOf z).1
  · rw [if_pos hxy, if_pos hyz, if_pos (hxy.trans hyz)]
    exact lexLeChars_trans _ _ _
  · rw [if_pos hxy, if_neg hyz, if_neg (fun h => hyz (hxy.symm.trans h))]
    intro _ h2
    rw [hxy]
    exact h2
  · rw [if_neg hxy, if_pos hyz, if_neg (fun h => hxy (h.trans hyz.symm))]
    intro h1 _
    rw [← hyz]
    exact h1
  · rw [if_neg hxy, if_neg hyz]
    intro h1 h2
    by_cases hxz : (sortKeyOf x).1 = (sortKeyOf z).1
    · exfalso
      apply hxy
      exact lexLeChars_antisymm _ _ h1 (by rw [hxz]; exact h2)
    · rw [if_neg hxz]
      exact lexLeChars_trans _ _ _ h1 h2

/-- Reconstruction: when a space is found, the original list is the head
part, the space, and the tail part. -/
lemma splitFirstSpace_reconstruct : ∀ (l t : List Char),
    (splitFirstSpace l).2 = some t → l = (splitFirstSpace l).1 ++ ' ' :: t
  | [], t, h => by exact absurd h (by simp [splitFirstSpace])
  | c :: rest, t, h => by
    by_cases hc : c = ' '
    · have hs : splitFirstSpace (c :: rest) = ([], some rest) := by
        simp only [splitFirstSpace]
        rw [if_pos hc]
      rw [hs] at h ⊢
      have : rest = t := Option.some.inj h
      rw [hc, this]
      rfl
    · have hs : splitFirstSpace (c :: rest) =
          (c :: (splitFirstSpace rest).1, (splitFirstSpace rest).2) := by
        simp only [splitFirstSpace]
        rw [if_neg hc]
      rw [hs] at h ⊢
      have ih := splitFirstSpace_reconstruct rest t h
      show c :: rest = (c :: (splitFirstSpace rest).1) ++ ' ' :: t
      rw [List.cons_append, ← ih]

/-- A list containing a space splits with a tail. -/
lemma splitFirstSpace_isSome_append : ∀ (l1 l2 : List Char),
    ((splitFirstSpace (l1 ++ ' ' :: l2)).2).isSome = true
  | [], l2 => by
    show ((splitFirstSpace (' ' :: l2)).2).isSome = true
    simp [splitFirstSpace]
  | c :: l1, l2 => by
    by_cases hc : c = ' '
    · show ((splitFirstSpace (c :: (l1 ++ ' ' :: l2))).2).isSome = true
      simp [splitFirstSpace, hc]
    · show ((splitFirstSpace (c :: (l1 ++ ' ' :: l2))).2).isSome = true
      simp only [splitFirstSpace]
      rw [if_neg hc]
      exact splitFirstSpace_isSome_append l1 l2

/-- Every pivot column name `"{asset} {key}"` contains a space. -/
lemma colName_hasSpace (a k : String) :
    ((splitFirstSpace (colName a k).toList).2).isSome = true := by
  have hdata : (colName a k).toList = a.data ++ ' ' :: k.data := by
    show (a ++ " " ++ k).data = a.data ++ ' ' :: k.data
    have hsp : (" " : String).data = [' '] := by decide
    rw [String.data_append, String.data_append, hsp, List.append_assoc]
    rfl
  rw [hdata]
  exact splitFirstSpace_isSome_append a.data k.data

/-- On strings that contain a space, the sort key determines the string, so
`keyLe` is antisymmetric there. -/
lemma keyLe_antisymm_spaced {x y : String}
    (hx : ((splitFirstSpace x.toList).2).isSome = true)
    (hy : ((splitFirstSpace y.toList).2).isSome = true)
    (h1 : keyLe x y = true) (h2 : keyLe y x = true) : x = y := by
  obtain ⟨tx, htx⟩ := Option.isSome_iff_exists.mp hx
  obtain ⟨ty, hty⟩ := Option.isSome_iff_exists.mp hy
  have hkx2 : (sortKeyOf x).2 = tx := by
    show ((splitFirstSpace x.toList).2).getD [] = tx
    rw [htx]
    rfl
  have hky2 : (sortKeyOf y).2 = ty := by
    show ((splitFirstSpace y.toList).2).getD [] = ty
    rw [hty]
    rfl
  unfold keyLe at h1 h2
  by_cases hk : (sortKeyOf x).1 = (sortKeyOf y).1
  · rw [if_pos hk] at h1
    rw [if_pos hk.symm] at h2
    have htails : (sortKeyOf x).2 = (sortKeyOf y).2 :=
      lexLeChars_antisymm _ _ h1 h2
    have hxl : x.toList = (sortKeyOf x).1 ++ ' ' :: tx :=
      splitFirstSpace_reconstruct x.toList tx htx
    have hyl : y.toList = (sortKeyOf y).1 ++ ' ' :: ty :=
      splitFirstSpace_reconstruct y.toList ty hty
    apply String.ext
    show x.toList = y.toList
    rw [hxl, hyl, hk, ← hkx2, htails, hky2]
  · rw [if_neg hk] at h1
    rw [if_neg (fun h => hk h.symm)] at h2
    exact absurd (lexLeChars_antisymm _ _ h1 h2) hk

/-- `any` is invariant under permutation. -/
lemma any_congr_perm {α : Type} {l1 l2 : List α} (hp : l1.Perm l2)
    (p : α → Bool) : l1.any p = l2.any p := by
  cases h1 : l1.any p with
  | false =>
    cases h2 : l2.any p with
    | false => rfl
    | true =>
      exfalso
      rw [List.any_eq_true] at h2
      obtain ⟨x, hx, hpx⟩ := h2
      have : l1.any p = true := List.any_eq_true.mpr ⟨x, hp.mem_iff.mpr hx, hpx⟩
      rw [h1] at this
      exact Bool.false_ne_true this
  | true =>
    cases h2 : l2.any p with
    | false =>
      exfalso
      rw [List.any_eq_true] at h1
      obtain ⟨x, hx, hpx⟩ := h1
      have : l2.any p = true := List.any_eq_true.mpr ⟨x, hp.mem_iff.mp hx, hpx⟩
      rw [h2] at this
      exact Bool.false_ne_true this
    | true => rfl

/-- `flatMap` over pointwise-permuted components is a permutation. -/
lemma flatMap_perm_of_component {α β : Type} {f g : α → List β} :
    ∀ (l : List α), (∀ a ∈ l, (f a).Perm (g a)) →
      (l.flatMap f).Perm (l.flatMap g)
  | [], _ => List.Perm.refl _
  | a :: l, h => by
    simp only [List.flatMap_cons]
    exact (h a (List.mem_cons_self a l)).append
      (flatMap_perm_of_component l fun b hb => h b (List.mem_cons_of_mem a hb))

/-- Sorted permutations agree when the order is antisymmetric on the
elements involved. -/
lemma eq_of_perm_of_sorted_of_antisymmOn {α : Type} {le : α → α → Bool} :
    ∀ {l1 l2 : List α}, l1.Perm l2 →
      l1.Pairwise (fun a b => le a b = true) →
      l2.Pairwise (fun a b => le a b = true) →
      (∀ x ∈ l1, ∀ y ∈ l1, le x y = true → le y x = true → x = y) →
      l1 = l2
  | [], l2, hp, _, _, _ => (hp.nil_eq).symm ▸ rfl
  | x :: xs, l2, hp, hs1, hs2, hanti => by
    cases l2 with
    | nil => exact absurd hp.symm.nil_eq (by simp)
    | cons y ys =>
      have hxy : x = y := by
        have hxin : x ∈ y :: ys := hp.mem_iff.mp (List.mem_cons_self x xs)
        have hyin : y ∈ x :: xs := hp.mem_iff.mpr (List.mem_cons_self y ys)
        rcases List.mem_cons.mp hxin with h | h
        · exact h
        · rcases List.mem_cons.mp hyin with h2 | h2
          · exact h2.symm
          · have hle1 : le x y = true := (List.pairwise_cons.mp hs1).1 y h2
            have hle2 : le y x = true := (List.pairwise_cons.mp hs2).1 x h
            exact hanti x (List.mem_cons_self x xs) y
              (List.mem_cons_of_mem x h2) hle1 hle2
      subst hxy
      have htails : xs.Perm ys := hp.cons_inv
      have := eq_of_perm_of_sorted_of_antisymmOn htails
        (List.pairwise_cons.mp hs1).2 (List.pairwise_cons.mp hs2).2
        (fun a ha b hb => hanti a (List.mem_cons_of_mem x ha) b
          (List.mem_cons_of_mem x hb))
      rw [this]

/-- `head?` is invariant under permutation when all elements coincide. -/
lemma head?_eq_of_perm_of_allEq {α : Type} {l1 l2 : List α} (hp : l1.Perm l2)
    (hall : ∀ a ∈ l1, ∀ b ∈ l1, a = b) : l1.head? = l2.head? := by
  cases l1 with
  | nil => rw [hp.nil_eq]
  | cons a as =>
    cases l2 with
    | nil => exact absurd hp.symm.nil_eq (by simp)
    | cons b bs =>
      have hb : b ∈ a :: as := hp.mem_iff.mpr (List.mem_cons_self b bs)
      have : a = b := hall a (List.mem_cons_self a as) b hb
      rw [this]
      rfl

/-- Every pivot column name contains a space. -/
lemma mem_pivotColNames_spaced {c : String} {rows : List RawRow}
    {keys : List String} (h : c ∈ pivotColNames rows keys) :
    ((splitFirstSpace c.toList).2).isSome = true := by
  unfold pivotColNames at h
  rw [List.mem_flatMap] at h
  obtain ⟨k, _, hk⟩ := h
  rw [List.mem_filterMap] at hk
  obtain ⟨a, _, ha⟩ := hk
  by_cases hd : hasData rows a k = true
  · rw [if_pos hd] at ha
    have : colName a k = c := Option.some.inj ha
    rw [← this]
    exact colName_hasSpace a k
  · rw [if_neg hd] at ha
    exact Option.noConfusion ha

/-- Claim C6 counterexample: two raw rows that collide at one (timestamp,
asset, key) give different pivot cells depending on input order (first-wins
is order-sensitive), refuting order-independence of the cell values. -/
theorem claim_C6_counterexample :
    ([(⟨0, "A", [("k", some 1)]⟩ : RawRow), ⟨0, "A", [("k", some 2)]⟩].Perm
      [⟨0, "A", [("k", some 2)]⟩, ⟨0, "A", [("k", some 1)]⟩]) ∧
    pivotCell [⟨0, "A", [("k", some 1)]⟩, ⟨0, "A", [("k", some 2)]⟩] 0 "A" "k" ≠
      pivotCell [⟨0, "A", [("k", some 2)]⟩, ⟨0, "A", [("k", some 1)]⟩] 0 "A" "k" :=
  ⟨List.Perm.swap _ _ _, by decide⟩

/-- Claim C6 (amended): re-running pivot construction on the same raw rows in
a different input order yields the identical column order always, and
identical cell values provided no two rows with distinct values collide at
one (snapped timestamp, asset, key); with such a collision the first-wins
cell is order-sensitive (see the counterexample). -/
theorem claim_C6_pivot_determinism (rows1 rows2 : List RawRow)
    (keys columnMapKeys : List String) (hp : rows1.Perm rows2) :
    pivot_columns rows1 keys columnMapKeys =
      pivot_columns rows2 keys columnMapKeys ∧
    ((∀ r1 ∈ rows1, ∀ r2 ∈ rows1, r1.ts = r2.ts → r1.asset = r2.asset →
        ∀ (k : String) (v1 v2 : ℚ), cellLookup r1 k = some v1 →
          cellLookup r2 k = some v2 → v1 = v2) →
      ∀ (t : ℤ) (a k : String), pivotCell rows1 t a k = pivotCell rows2 t a k) := by
  constructor
  · have hdata : ∀ a k, hasData rows1 a k = hasData rows2 a k := fun a k =>
      any_congr_perm hp _
    have hassets : (observedAssets rows1).Perm (observedAssets rows2) :=
      (hp.map _).dedup
    have hcols : (pivotColNames rows1 keys).Perm (pivotColNames rows2 keys) := by
      unfold pivotColNames
      apply flatMap_perm_of_component
      intro k0 _
      have hfun : (fun a => if hasData rows1 a k0 then some (colName a k0) else none) =
          (fun a => if hasData rows2 a k0 then some (colName a k0) else none) := by
        funext a
        rw [hdata]
      rw [hfun]
      exact hassets.filterMap _
    have hmemc : ∀ c : String,
        (c ∈ pivotColNames rows1 keys) = (c ∈ pivotColNames rows2 keys) :=
      fun c => propext hcols.mem_iff
    have hco : (columnMapKeys.filter fun c => decide (c ∈ pivotColNames rows1 keys)) =
        (columnMapKeys.filter fun c => decide (c ∈ pivotColNames rows2 keys)) := by
      apply List.filter_congr
      intro c _
      simp only [hmemc]
    have hrem : ((pivotColNames rows1 keys).filter fun c =>
          decide (c ∉ "Timestamp" ::
            columnMapKeys.filter fun c2 => decide (c2 ∈ pivotColNames rows1 keys))).Perm
        ((pivotColNames rows2 keys).filter fun c =>
          decide (c ∉ "Timestamp" ::
            columnMapKeys.filter fun c2 => decide (c2 ∈ pivotColNames rows1 keys))) :=
      hcols.filter _
    have hsorteq : ((pivotColNames rows1 keys).filter fun c =>
          decide (c ∉ "Timestamp" ::
            columnMapKeys.filter fun c2 => decide (c2 ∈ pivotColNames rows1 keys))).mergeSort keyLe =
        ((pivotColNames rows2 keys).filter fun c =>
          decide (c ∉ "Timestamp" ::
            columnMapKeys.filter fun c2 => decide (c2 ∈ pivotColNames rows1 keys))).mergeSort keyLe := by
      apply eq_of_perm_of_sorted_of_antisymmOn
      · exact ((List.mergeSort_perm _ keyLe).trans hrem).trans
          (List.mergeSort_perm _ keyLe).symm
      · exact List.sorted_mergeSort keyLe_trans keyLe_total _
      · exact List.sorted_mergeSort keyLe_trans keyLe_total _
      · intro x hx y hy h1 h2
        have hx2 : x ∈ pivotColNames rows1 keys :=
          List.mem_of_mem_filter (List.mem_mergeSort.mp hx)
        have hy2 : y ∈ pivotColNames rows1 keys :=
          List.mem_of_mem_filter (List.mem_mergeSort.mp hy)
        exact keyLe_antisymm_spaced (mem_pivotColNames_spaced hx2)
          (mem_pivotColNames_spaced hy2) h1 h2
    show ("Timestamp" ::
        columnMapKeys.filter fun c => decide (c ∈ pivotColNames rows1 keys)) ++
        ((pivotColNames rows1 keys).filter fun c =>
          decide (c ∉ "Timestamp" ::
            columnMapKeys.filter fun c2 =>
              decide (c2 ∈ pivotColNames rows1 keys))).mergeSort keyLe =
      ("Timestamp" ::
        columnMapKeys.filter fun c => decide (c ∈ pivotColNames rows2 keys)) ++
        ((pivotColNames rows2 keys).filter fun c =>
          decide (c ∉ "Timestamp" ::
            columnMapKeys.filter fun c2 =>
              decide (c2 ∈ pivotColNames rows2 keys))).mergeSort keyLe
    rw [← hco, hsorteq]
  · intro hnc t a k
    unfold pivotCell
    apply head?_eq_of_perm_of_allEq (hp.filterMap _)
    intro v1 hv1 v2 hv2
    rw [List.mem_filterMap] at hv1 hv2
    obtain ⟨r1, hr1, h1⟩ := hv1
    obtain ⟨r2, hr2, h2⟩ := hv2
    by_cases hc1 : r1.ts = t ∧ r1.asset = a
    · rw [if_pos hc1] at h1
      by_cases hc2 : r2.ts = t ∧ r2.asset = a
      · rw [if_pos hc2] at h2
        exact hnc r1 hr1 r2 hr2 (hc1.1.trans hc2.1.symm)
          (hc1.2.trans hc2.2.symm) k v1 v2 h1 h2
      · rw [if_neg hc2] at h2
        exact absurd h2 (by simp)
    · rw [if_neg hc1] at h1
      exact absurd h1 (by simp)

theorem claim_C6_pivot_determinism_witness :
    ([(⟨0, "A", [("k", some 1)]⟩ : RawRow), ⟨3600000, "A", [("k", some 2)]⟩].Perm
      [⟨3600000, "A", [("k", some 2)]⟩, ⟨0, "A", [("k", some 1)]⟩]) ∧
    pivot_columns [(⟨0, "A", [("k", some 1)]⟩ : RawRow),
        ⟨3600000, "A", [("k", some 2)]⟩] ["k"] [] =
      pivot_columns [⟨3600000, "A", [("k", some 2)]⟩,
        ⟨0, "A", [("k", some 1)]⟩] ["k"] [] ∧
    pivotCell [(⟨0, "A", [("k", some 1)]⟩ : RawRow),
        ⟨3600000, "A", [("k", some 2)]⟩] 0 "A" "k" =
      pivotCell [⟨3600000, "A", [("k", some 2)]⟩,
        ⟨0, "A", [("k", some 1)]⟩] 0 "A" "k" := by
  have hperm : ([(⟨0, "A", [("k", some 1)]⟩ : RawRow),
      ⟨3600000, "A", [("k", some 2)]⟩].Perm
      [⟨3600000, "A", [("k", some 2)]⟩, ⟨0, "A", [("k", some 1)]⟩]) :=
    List.Perm.swap _ _ _
  have hnc : ∀ r1 ∈ [(⟨0, "A", [("k", some 1)]⟩ : RawRow),
      ⟨3600000, "A", [("k", some 2)]⟩],
      ∀ r2 ∈ [(⟨0, "A", [("k", some 1)]⟩ : RawRow),
        ⟨3600000, "A", [("k", some 2)]⟩],
      r1.ts = r2.ts → r1.asset = r2.asset →
      ∀ (k : String) (v1 v2 : ℚ), cellLookup r1 k = some v1 →
        cellLookup r2 k = some v2 → v1 = v2 := by
    intro r1 h1 r2 h2 hts _ k v1 v2 hv1 hv2
    rcases List.mem_cons.mp h1 with e1 | h1 <;>
      rcases List.mem_cons.mp h2 with e2 | h2
    · subst e1; subst e2
      exact Option.some.inj (hv1.symm.trans hv2)
    · rcases List.mem_cons.mp h2 with e2 | h2
      · subst e1; subst e2
        exact absurd hts (by decide)
      · exact absurd h2 (List.not_mem_nil r2)
    · rcases List.mem_cons.mp h1 with e1 | h1
      · subst e1; subst e2
        exact absurd hts (by decide)
      · exact absurd h1 (List.not_mem_nil r1)
    · rcases List.mem_cons.mp h1 with e1 | h1
      · rcases List.mem_cons.mp h2 with e2 | h2
        · subst e1; subst e2
          exact Option.some.inj (hv1.symm.trans hv2)
        · exact absurd h2 (List.not_mem_nil r2)
      · exact absurd h1 (List.not_mem_nil r1)
  have h := claim_C6_pivot_determinism _ _ ["k"] [] hperm
  exact ⟨hperm, h.1, h.2 hnc 0 "A" "k"⟩

/-- Unfolding of `chunkRanges` when the loop continues. -/
lemma chunkRanges_pos {cms endTs t : ℤ} (h : t < endTs ∧ 0 < cms) :
    chunkRanges cms endTs t =
      (t, min (t + cms) endTs) :: chunkRanges cms endTs (min (t + cms) endTs) := by
  rw [chunkRanges]
  rw [dif_pos h]

/-- Unfolding of `chunkRanges` when the loop stops. -/
lemma chunkRanges_neg {cms endTs t : ℤ} (h : ¬ (t < endTs ∧ 0 < cms)) :
    chunkRanges cms endTs t = [] := by
  rw [chunkRanges]
  rw [dif_neg h]

/-- Each issued sub-range sits inside `[t, endTs]` and is non-degenerate. -/
lemma chunkRanges_bounds (cms endTs : ℤ) : ∀ (n : ℕ) (t : ℤ) (r : ℤ × ℤ),
    (endTs - t).toNat ≤ n → r ∈ chunkRanges cms endTs t →
      t ≤ r.1 ∧ r.1 < r.2 ∧ r.2 ≤ endTs
  | 0, t, r, hle, hmem => by
    have hstop : ¬ (t < endTs ∧ 0 < cms) := by
      intro hcontra
      omega
    rw [chunkRanges_neg hstop] at hmem
    exact absurd hmem (List.not_mem_nil r)
  | n + 1, t, r, hle, hmem => by
    by_cases h : t < endTs ∧ 0 < cms
    · rw [chunkRanges_pos h] at hmem
      rcases List.mem_cons.mp hmem with heq | hmem2
      · rw [heq]
        refine ⟨le_refl t, ?_, ?_⟩
        · show t < min (t + cms) endTs
          omega
        · show min (t + cms) endTs ≤ endTs
          omega
      · have hlt : t < min (t + cms) endTs := by omega
        have hfuel : (endTs - min (t + cms) endTs).toNat ≤ n := by omega
        have := chunkRanges_bounds cms endTs n (min (t + cms) endTs) r hfuel hmem2
        exact ⟨by omega, this.2⟩
    · rw [chunkRanges_neg h] at hmem
      exact absurd hmem (List.not_mem_nil r)

/-- The sub-ranges are consecutive: each ends where the next begins. -/
lemma chunkRanges_chain (cms endTs : ℤ) : ∀ (n : ℕ) (t : ℤ),
    (endTs - t).toNat ≤ n →
      List.Chain' (fun r1 r2 : ℤ × ℤ => r1.2 = r2.1) (chunkRanges cms endTs t)
  | 0, t, hle => by
    have hstop : ¬ (t < endTs ∧ 0 < cms) := by
      intro hcontra
      omega
    rw [chunkRanges_neg hstop]
    exact List.chain'_nil
  | n + 1, t, hle => by
    by_cases h : t < endTs ∧ 0 < cms
    · rw [chunkRanges_pos h]
      have hlt : t < min (t + cms) endTs := by omega
      have hfuel : (endTs - min (t + cms) endTs).toNat ≤ n := by omega
      have hrec := chunkRanges_chain cms endTs n (min (t + cms) endTs) hfuel
      cases hrest : chunkRanges cms endTs (min (t + cms) endTs) with
      | nil => simp
      | cons r rest2 =>
        have hh : r.1 = min (t + cms) endTs := by
          by_cases h2 : min (t + cms) endTs < endTs ∧ 0 < cms
          · rw [chunkRanges_pos h2] at hrest
            injection hrest with hhead htail
            rw [← hhead]
          · rw [chunkRanges_neg h2] at hrest
            exact absurd hrest (by simp)
        rw [hrest] at hrec
        exact List.Chain'.cons (by rw [hh]) hrec
    · rw [chunkRanges_neg h]
      exact List.chain'_nil

/-- Each timestamp in `[t, endTs)` lies in exactly one issued sub-range. -/
lemma chunkRanges_exactlyOne (cms endTs : ℤ) (hcms : 0 < cms) :
    ∀ (n : ℕ) (t ts : ℤ), (endTs - t).toNat ≤ n → t ≤ ts → ts < endTs →
      ∃! r, r ∈ chunkRanges cms endTs t ∧ r.1 ≤ ts ∧ ts < r.2
  | 0, t, ts, hle, hts1, hts2 => by omega
  | n + 1, t, ts, hle, hts1, hts2 => by
    have h : t < endTs ∧ 0 < cms := ⟨by omega, hcms⟩
    rw [chunkRanges_pos h]
    have hlt : t < min (t + cms) endTs := by omega
    have hfuel : (endTs - min (t + cms) endTs).toNat ≤ n := by omega
    by_cases hts : ts < min (t + cms) endTs
    · refine ⟨(t, min (t + cms) endTs),
        ⟨List.mem_cons_self _ _, hts1, hts⟩, ?_⟩
      rintro r' ⟨hmem', h1', h2'⟩
      rcases List.mem_cons.mp hmem' with heq | hmem2
      · exact heq
      · exfalso
        have := chunkRanges_bounds cms endTs n (min (t + cms) endTs) r' hfuel hmem2
        omega
    · have hrec := chunkRanges_exactlyOne cms endTs hcms n (min (t + cms) endTs) ts
        hfuel (by omega) hts2
      obtain ⟨r, ⟨hmem, hb1, hb2⟩, huniq⟩ := hrec
      refine ⟨r, ⟨List.mem_cons_of_mem _ hmem, hb1, hb2⟩, ?_⟩
      rintro r' ⟨hmem', h1', h2'⟩
      rcases List.mem_cons.mp hmem' with heq | hmem2
      · exfalso
        rw [heq] at h2'
        exact hts (by exact h2')
      · exact huniq r' ⟨hmem2, h1', h2'⟩

/-- Splitting the bucket count at an interval-aligned midpoint. -/
lemma bucketCount_split (lo mid hi i : ℤ) (hI : 0 < i) (c : ℕ)
    (hmid : mid = lo + c * i) (hle : mid ≤ hi) :
    bucketCount lo hi i = c + bucketCount mid hi i := by
  unfold bucketCount
  have h1 : hi - lo + i - 1 = (hi - mid + i - 1) + c * i := by rw [hmid]; ring
  rw [h1, Int.add_mul_ediv_right _ _ (ne_of_gt hI)]
  have h2 : 0 ≤ (hi - mid + i - 1) / i := Int.ediv_nonneg (by omega) (by omega)
  omega

/-- The number of buckets of an exactly-aligned range. -/
lemma bucketCount_exact (lo mid i : ℤ) (hI : 0 < i) (c : ℕ)
    (hmid : mid = lo + c * i) : bucketCount lo mid i = c := by
  unfold bucketCount
  have h1 : mid - lo + i - 1 = (i - 1) + c * i := by rw [hmid]; ring
  rw [h1, Int.add_mul_ediv_right _ _ (ne_of_gt hI)]
  have h2 : (i - 1) / i = 0 := Int.ediv_eq_zero_of_lt (by omega) (by omega)
  rw [h2]
  omega

/-- An interior bucket (fully before the clip boundary) has the same content
whether the request range ends at `mid` or later at `hi`. -/
lemma bucketAt_congr (f : List ℚ → ℚ) (pts : List TSPoint) (i s mid hi : ℤ)
    (h1 : s + i ≤ mid) (h2 : mid ≤ hi) :
    bucketAt f pts mid i s = bucketAt f pts hi i s := by
  unfold bucketAt
  have hf : (pts.filter fun p =>
      decide (s ≤ p.ts) && decide (p.ts < s + i) && decide (p.ts < mid)) =
      pts.filter fun p =>
        decide (s ≤ p.ts) && decide (p.ts < s + i) && decide (p.ts < hi) := by
    apply List.filter_congr
    intro p _
    by_cases hts : p.ts < s + i
    · have ha : p.ts < mid := by omega
      have hb : p.ts < hi := by omega
      simp [hts, ha, hb]
    · simp [hts]
  rw [hf]

/-- An empty range produces no buckets. -/
lemma aggSeries_empty (f : List ℚ → ℚ) (pts : List TSPoint) (i t : ℤ)
    (hI : 0 < i) : aggSeries f pts i t t = []:= by
  unfold aggSeries
  have : bucketCount t t i = 0 := by
    unfold bucketCount
    have : (t - t + i - 1) / i = 0 := Int.ediv_eq_zero_of_lt (by omega) (by omega)
    omega
  rw [this]
  rfl

/-- Splitting an aggregated series at an interval-aligned midpoint: bucket
boundaries coincide, so the two sub-series concatenate to the full one. -/
lemma aggSeries_split (f : List ℚ → ℚ) (pts : List TSPoint) (i lo mid hi : ℤ)
    (hI : 0 < i) (c : ℕ) (hmid : mid = lo + c * i) (hle : mid ≤ hi) :
    aggSeries f pts i lo hi = aggSeries f pts i lo mid ++ aggSeries f pts i mid hi := by
  unfold aggSeries
  rw [bucketCount_split lo mid hi i hI c hmid hle,
    bucketCount_exact lo mid i hI c hmid, List.range_add, List.filterMap_append,
    List.filterMap_map]
  congr 1
  · apply List.filterMap_congr
    intro k hk
    rw [List.mem_range] at hk
    have hki : lo + k * i + i ≤ mid := by
      have : ((k : ℤ) + 1) * i ≤ (c : ℤ) * i := by
        apply mul_le_mul_of_nonneg_right _ (le_of_lt hI)
        omega
      rw [hmid]
      nlinarith
    exact (bucketAt_congr f pts i (lo + k * i) mid hi hki hle).symm
  · apply List.filterMap_congr
    intro k _
    show bucketAt f pts hi i (lo + ((c + k : ℕ) : ℤ) * i) =
      bucketAt f pts hi i (mid + k * i)
    have harg : lo + ((c + k : ℕ) : ℤ) * i = mid + (k : ℤ) * i := by
      push_cast
      rw [hmid]
      ring
    rw [harg]

/-- The chunk loop's per-key concatenation reproduces the unsplit aggregated
series: interior chunk widths are multiples of the interval, so all bucket
boundaries align. -/
lemma chunk_concat (f : List ℚ → ℚ) (pts : List TSPoint) (i : ℤ) (hI : 0 < i)
    (c0 : ℕ) (hc0 : 0 < c0) (endTs : ℤ) :
    ∀ (n : ℕ) (t : ℤ), (endTs - t).toNat ≤ n → t ≤ endTs →
      ((chunkRanges ((c0 : ℤ) * i) endTs t).flatMap fun r =>
        aggSeries f pts i r.1 r.2) = aggSeries f pts i t endTs
  | 0, t, hle, hende => by
    have hteq : t = endTs := by omega
    subst hteq
    rw [chunkRanges_neg (by omega)]
    rw [aggSeries_empty f pts i t hI]
    rfl
  | n + 1, t, hle, hende => by
    by_cases h : t < endTs
    · have hcms : (0 : ℤ) < (c0 : ℤ) * i := by positivity
      rw [chunkRanges_pos ⟨h, hcms⟩, List.flatMap_cons]
      rcases le_total (t + (c0 : ℤ) * i) endTs with hc | hc
      · have hmin : min (t + (c0 : ℤ) * i) endTs = t + (c0 : ℤ) * i :=
          min_eq_left hc
        rw [hmin]
        have hrec := chunk_concat f pts i hI c0 hc0 endTs n (t + (c0 : ℤ) * i)
          (by omega) hc
        rw [hrec]
        exact (aggSeries_split f pts i t (t + (c0 : ℤ) * i) endTs hI c0
          (by ring) hc).symm
      · have hmin : min (t + (c0 : ℤ) * i) endTs = endTs := min_eq_right hc
        rw [hmin]
        rw [chunkRanges_neg (by omega)]
        show aggSeries f pts i t endTs ++ [] = aggSeries f pts i t endTs
        rw [List.append_nil]
    · have hteq : t = endTs := by omega
      subst hteq
      rw [chunkRanges_neg (by omega)]
      rw [aggSeries_empty f pts i t hI]
      rfl

/-- One step of the `setdefault`/`extend` fold. -/
lemma mergeChunkInto_cons (m : KeyedSeries) (e : String × List TSPoint)
    (es : KeyedSeries) :
    mergeChunkInto m (e :: es) =
      mergeChunkInto
        (if m.any fun e2 => decide (e2.1 = e.1) then
          m.map fun e2 => if e2.1 = e.1 then (e2.1, e2.2 ++ e.2) else e2
        else m ++ [(e.1, e.2)]) es := rfl

/-- Updating a dict whose keys are exactly `K` appends pointwise. -/
lemma upd_map (K : List String) (m : String → List TSPoint) (k0 : String)
    (v : List TSPoint) (hk0 : k0 ∈ K) :
    (if (K.map fun k => (k, m k)).any (fun e2 => decide (e2.1 = k0)) then
      (K.map fun k => (k, m k)).map fun e2 =>
        if e2.1 = k0 then (e2.1, e2.2 ++ v) else e2
    else (K.map fun k => (k, m k)) ++ [(k0, v)]) =
    K.map fun k => (k, if k = k0 then m k ++ v else m k) := by
  have hany : ((K.map fun k => (k, m k)).any fun e2 => decide (e2.1 = k0)) = true := by
    rw [List.any_eq_true]
    exact ⟨(k0, m k0), List.mem_map_of_mem _ hk0, by simp⟩
  rw [if_pos hany, List.map_map]
  apply List.map_congr_left
  intro k _
  show (if k = k0 then (k, m k ++ v) else (k, m k)) =
    (k, if k = k0 then m k ++ v else m k)
  by_cases h : k = k0
  · rw [if_pos h, if_pos h]
  · rw [if_neg h, if_neg h]

/-- In a duplicate-free key list, filtering for one member keeps exactly it. -/
lemma filter_eq_singleton_of_nodup {K : List String} (hnd : K.Nodup) {k : String}
    (hk : k ∈ K) : (K.filter fun k2 => decide (k2 = k)) = [k] := by
  induction K with
  | nil => exact absurd hk (List.not_mem_nil k)
  | cons a K ih =>
    rw [List.nodup_cons] at hnd
    rcases List.mem_cons.mp hk with heq | hmem
    · subst heq
      rw [List.filter_cons, if_pos (by simp)]
      have hnil : (K.filter fun k2 => decide (k2 = k)) = [] := by
        rw [List.filter_eq_nil_iff]
        intro b hb
        simp only [decide_eq_true_eq]
        intro hbk
        exact hnd.1 (hbk ▸ hb)
      rw [hnil]
    · have hne : a ≠ k := fun h => hnd.1 (h ▸ hmem)
      rw [List.filter_cons, if_neg (by simp [hne])]
      exact ih hnd.2 hmem

/-- Merging a chunk whose key list is contained in `K` into a dict over `K`
appends each key's points. -/
lemma mergeChunk_map (K : List String) (g : String → List TSPoint) :
    ∀ (Kp : List String), (∀ k ∈ Kp, k ∈ K) → ∀ (m : String → List TSPoint),
      mergeChunkInto (K.map fun k => (k, m k)) (Kp.map fun k => (k, g k)) =
        K.map fun k =>
          (k, m k ++ (Kp.filter fun k2 => decide (k2 = k)).flatMap g)
  | [], _, m => by
    show K.map (fun k => (k, m k)) = _
    apply List.map_congr_left
    intro k _
    simp
  | k0 :: rest, hsub, m => by
    rw [List.map_cons, mergeChunkInto_cons,
      upd_map K m k0 (g k0) (hsub k0 (List.mem_cons_self k0 rest)),
      mergeChunk_map K g rest (fun k h => hsub k (List.mem_cons_of_mem k0 h))
        (fun k => if k = k0 then m k ++ g k0 else m k)]
    apply List.map_congr_left
    intro k _
    rw [List.filter_cons]
    by_cases h : k0 = k
    · have hd : decide (k0 = k) = true := by simp [h]
      rw [if_pos h.symm, if_pos hd, List.flatMap_cons, List.append_assoc]
    · rw [if_neg (fun hh => h hh.symm), if_neg (by simp [h])]

/-- Merging a chunk with entirely fresh keys appends its entries. -/
lemma mergeInto_fresh : ∀ (Kp : List String) (g : String → List TSPoint)
    (m : KeyedSeries),
    (∀ k ∈ Kp, (m.any fun e2 => decide (e2.1 = k)) = false) → Kp.Nodup →
    mergeChunkInto m (Kp.map fun k => (k, g k)) = m ++ Kp.map fun k => (k, g k)
  | [], g, m, _, _ => by
    show m = m ++ []
    rw [List.append_nil]
  | k0 :: rest, g, m, hfresh, hnd => by
    rw [List.nodup_cons] at hnd
    rw [List.map_cons, mergeChunkInto_cons,
      if_neg (by simp [hfresh k0 (List.mem_cons_self k0 rest)])]
    rw [mergeInto_fresh rest g (m ++ [(k0, g k0)]) ?_ hnd.2]
    · rw [List.append_assoc]
      rfl
    · intro k hk
      rw [List.any_append]
      have h1 : (m.any fun e2 => decide (e2.1 = k)) = false :=
        hfresh k (List.mem_cons_of_mem k0 hk)
      have h2 : k0 ≠ k := fun h => hnd.1 (h ▸ hk)
      simp [h1, h2]

/-- The chunk loop over a dict holding all requested keys accumulates the
per-key concatenation of the chunk responses, in request order. -/
lemma chunkedFetch_ok (K : List String) (hnd : K.Nodup)
    (S : ℤ → ℤ → String → List TSPoint) :
    ∀ (ranges : List (ℤ × ℤ)) (m : String → List TSPoint),
      chunkedFetch (fun a b => Except.ok (K.map fun k => (k, S a b k))) ranges
          (K.map fun k => (k, m k)) =
        Except.ok (K.map fun k =>
          (k, m k ++ ranges.flatMap fun r => S r.1 r.2 k))
  | [], m => by
    show Except.ok _ = Except.ok _
    congr 1
    apply List.map_congr_left
    intro k _
    simp
  | r0 :: rest, m => by
    show chunkedFetch _ rest (mergeChunkInto (K.map fun k => (k, m k))
      (K.map fun k => (k, S r0.1 r0.2 k))) = _
    rw [mergeChunk_map K (S r0.1 r0.2) K (fun k h => h) m]
    have hmap : (K.map fun k =>
        (k, m k ++ (K.filter fun k2 => decide (k2 = k)).flatMap (S r0.1 r0.2))) =
        K.map fun k => (k, m k ++ S r0.1 r0.2 k) := by
      apply List.map_congr_left
      intro k hk
      rw [filter_eq_singleton_of_nodup hnd hk]
      simp
    rw [hmap, chunkedFetch_ok K hnd S rest (fun k => m k ++ S r0.1 r0.2 k)]
    congr 1
    apply List.map_congr_left
    intro k _
    rw [List.flatMap_cons, List.append_assoc]

/-- The chunk loop started from the empty dict (first chunk inserts all
requested keys). -/
lemma chunkedFetch_nil_start (K : List String) (hnd : K.Nodup)
    (S : ℤ → ℤ → String → List TSPoint) (r0 : ℤ × ℤ) (rest : List (ℤ × ℤ)) :
    chunkedFetch (fun a b => Except.ok (K.map fun k => (k, S a b k)))
        (r0 :: rest) [] =
      Except.ok (K.map fun k =>
        (k, (r0 :: rest).flatMap fun r => S r.1 r.2 k)) := by
  show chunkedFetch _ rest
    (mergeChunkInto [] (K.map fun k => (k, S r0.1 r0.2 k))) = _
  rw [mergeInto_fresh K (S r0.1 r0.2) [] (fun k _ => rfl) hnd, List.nil_append,
    chunkedFetch_ok K hnd S rest (fun k => S r0.1 r0.2 k)]
  congr 1

/-- Claim C3: when chunked fetching triggers (interval count beyond the cap
of 700), the issued sub-ranges are consecutive, each point of the range
belongs to exactly one sub-range, and the per-key merge of the chunk
responses (in request order) equals the response of one unsplit request over
the whole range. -/
theorem claim_C3_chunk_losslessness
    (data : List (String × List TSPoint)) (f : List ℚ → ℚ) (keys : List String)
    (agg : String) (i lo hi : ℤ)
    (hagg : agg ≠ "NONE") (hI : 0 < i)
    (hchunk : MAX_INTERVALS_PER_REQUEST * i < hi - lo)
    (hkeys : keys.Nodup) :
    List.Chain' (fun r1 r2 : ℤ × ℤ => r1.2 = r2.1)
      (chunkRanges (MAX_INTERVALS_PER_REQUEST * i) hi lo) ∧
    (∀ ts : ℤ, lo ≤ ts → ts < hi →
      ∃! r, r ∈ chunkRanges (MAX_INTERVALS_PER_REQUEST * i) hi lo ∧
        r.1 ≤ ts ∧ ts < r.2) ∧
    fetch_timeseries (fun a b => Except.ok (tbServer data f i keys a b)) lo hi
        agg (some i) =
      Except.ok (tbServer data f i keys lo hi) := by
  have hMI : MAX_INTERVALS_PER_REQUEST = (700 : ℤ) := rfl
  have hcms : (0 : ℤ) < MAX_INTERVALS_PER_REQUEST * i := by
    rw [hMI]
    positivity
  have hlo : lo < hi := by linarith
  refine ⟨?_, ?_, ?_⟩
  · exact chunkRanges_chain _ hi (hi - lo).toNat lo (le_refl _)
  · intro ts h1 h2
    exact chunkRanges_exactlyOne _ hi hcms (hi - lo).toNat lo ts (le_refl _) h1 h2
  · have hunfold : fetch_timeseries
        (fun a b => Except.ok (tbServer data f i keys a b)) lo hi agg (some i) =
        if agg ≠ "NONE" ∧ i ≠ 0 then
          if (MAX_INTERVALS_PER_REQUEST : ℚ) < ((hi - lo : ℤ) : ℚ) / (i : ℚ) then
            chunkedFetch (fun a b => Except.ok (tbServer data f i keys a b))
              (chunkRanges (MAX_INTERVALS_PER_REQUEST * i) hi lo) []
          else Except.ok (tbServer data f i keys lo hi)
        else Except.ok (tbServer data f i keys lo hi) := rfl
    rw [hunfold, if_pos ⟨hagg, ne_of_gt hI⟩]
    have hcond : (MAX_INTERVALS_PER_REQUEST : ℚ) < ((hi - lo : ℤ) : ℚ) / (i : ℚ) := by
      rw [lt_div_iff (by exact_mod_cast hI)]
      exact_mod_cast hchunk
    rw [if_pos hcond]
    have hconcat : ∀ k, ((chunkRanges (MAX_INTERVALS_PER_REQUEST * i) hi lo).flatMap
        fun r => aggSeries f (seriesOf data k) i r.1 r.2) =
        aggSeries f (seriesOf data k) i lo hi := by
      intro k
      have hcast : MAX_INTERVALS_PER_REQUEST * i = ((700 : ℕ) : ℤ) * i := by
        rw [hMI]
        norm_num
      rw [hcast]
      exact chunk_concat f (seriesOf data k) i hI 700 (by norm_num) hi
        ((hi - lo).toNat) lo (le_refl _) (le_of_lt hlo)
    have hserver : (fun a b => Except.ok (tbServer data f i keys a b) :
        ℤ → ℤ → Except Unit KeyedSeries) =
        fun a b => Except.ok (keys.map fun k =>
          (k, aggSeries f (seriesOf data k) i a b)) := rfl
    have htb : tbServer data f i keys lo hi =
        keys.map fun k => (k, aggSeries f (seriesOf data k) i lo hi) := rfl
    rw [hserver, htb]
    cases hranges : chunkRanges (MAX_INTERVALS_PER_REQUEST * i) hi lo with
    | nil =>
      exfalso
      rw [chunkRanges_pos ⟨hlo, hcms⟩] at hranges
      exact List.noConfusion hranges
    | cons r0 rest =>
      rw [chunkedFetch_nil_start keys hkeys
        (fun a b k => aggSeries f (seriesOf data k) i a b) r0 rest]
      congr 1
      apply List.map_congr_left
      intro k _
      have hck := hconcat k
      rw [hranges] at hck
      show (k, (r0 :: rest).flatMap fun r => aggSeries f (seriesOf data k) i r.1 r.2) =
        (k, aggSeries f (seriesOf data k) i lo hi)
      rw [hck]

theorem claim_C3_chunk_losslessness_witness :
    ("AVG" ≠ "NONE") ∧ ((0 : ℤ) < 10) ∧
      (MAX_INTERVALS_PER_REQUEST * 10 < 7005 - 0) ∧ (["a", "b"].Nodup) ∧
    (List.Chain' (fun r1 r2 : ℤ × ℤ => r1.2 = r2.1)
      (chunkRanges (MAX_INTERVALS_PER_REQUEST * 10) 7005 0) ∧
    (∀ ts : ℤ, 0 ≤ ts → ts < 7005 →
      ∃! r, r ∈ chunkRanges (MAX_INTERVALS_PER_REQUEST * 10) 7005 0 ∧
        r.1 ≤ ts ∧ ts < r.2) ∧
    fetch_timeseries
        (fun a b => Except.ok (tbServer [("a", [⟨5, 2⟩, ⟨7000, 4⟩])]
          (fun l => l.sum) 10 ["a", "b"] a b)) 0 7005 "AVG" (some 10) =
      Except.ok (tbServer [("a", [⟨5, 2⟩, ⟨7000, 4⟩])]
        (fun l => l.sum) 10 ["a", "b"] 0 7005)) :=
  ⟨by decide, by decide, by decide, by decide,
    claim_C3_chunk_losslessness [("a", [⟨5, 2⟩, ⟨7000, 4⟩])] (fun l => l.sum)
      ["a", "b"] "AVG" 10 0 7005 (by decide) (by decide) (by decide) (by decide)⟩

end TbPivot
